import Mathlib

/-!
Verification development for the peggy-ts lowering engine (the newer
`toTypeScript` pass) and its generated-parser runtime.

The definitions below are a shallow embedding of the code that the engine
emits for each PEG construct, together with the engine-side algorithms the
claims mention (failure selection in the generated `parse` entry point, the
repetition loop, ordered choice, negation, the root wrapper, the union-type
constructor, the location-identity interning directory, and the native
regular-expression synthesis).  Strings are modelled as `List Char`.
-/

namespace PeggyTs

/-- Expectation kinds, from the runtime `Expectation.type` union
(`"literal" | "class" | "any" | "end" | "pattern" | "other"`). -/
inductive ExpKind : Type where
  | literal
  | cls
  | anyChar
  | endOfInput
  | pat
  | other
deriving DecidableEq, Repr

/-- An interned failure descriptor: kind plus description, as in the runtime
`Expectation` interface (`{ type, value }`). -/
structure Expectation : Type where
  kind : ExpKind
  value : String
deriving DecidableEq, Repr

/-- A failure record pairing an expectation with the input remainder at which
the failure occurred, as built by the engine's `FailedExpectation.toCode`
(`{ expectation, remainder }`). -/
structure FailedExpectation : Type where
  expectation : Expectation
  remainder : List Char
deriving DecidableEq, Repr

/-- Runtime result shape of every generated procedure: success carries
`value`, `remainder` and `failedExpectations`; failure carries `remainder`
and `failedExpectations` (the object literals built by `Success.toCode` and
`Failure.toCode` in the engine). -/
inductive PResult (α : Type) : Type where
  | success (value : α) (remainder : List Char)
      (failedExpectations : List FailedExpectation)
  | failure (remainder : List Char)
      (failedExpectations : List FailedExpectation)
deriving DecidableEq, Repr

/-- The `remainder` field, present on both result variants. -/
def PResult.remainder {α : Type} : PResult α → List Char
  | .success _ r _ => r
  | .failure r _ => r

/-- The `failedExpectations` field, present on both result variants. -/
def PResult.failedExpectations {α : Type} : PResult α → List FailedExpectation
  | .success _ _ f => f
  | .failure _ f => f

/-- The `success` discriminant field. -/
def PResult.isSuccessB {α : Type} : PResult α → Bool
  | .success _ _ _ => true
  | .failure _ _ => false

/-- Parse values produced by generated procedures: strings (literal, class,
any, text capture), `null` (optional fallback), `undefined` (negation), and
tuples/arrays of values (sequence, repetition). -/
inductive Val : Type where
  | str (s : List Char)
  | nul
  | und
  | list (vs : List Val)

/-- A generated procedure taking the remaining input; `none` models
divergence of the generated code (used by the repetition loop embedding). -/
abbrev ProcO (α : Type) : Type := List Char → Option (PResult α)

/-- Lowering of a literal (`Literal` in the engine): success slicing off the
literal when the input starts with it, else failure with one literal
expectation recorded at the unconsumed input. -/
def literalRun (value : List Char) (text : List Char) : PResult Val :=
  if value.isPrefixOf text then
    .success (.str value) (text.drop value.length) []
  else
    .failure text [⟨⟨.literal, String.mk value⟩, text⟩]

/-- Lowering of a character class (`Class` in the engine): tests the first
character against the class predicate (the `/^[...]/` regex test), consuming
one character on success. -/
def classRun (p : Char → Bool) (desc : String) (text : List Char) :
    PResult Val :=
  match text with
  | c :: rest =>
    if p c then .success (.str [c]) rest []
    else .failure text [⟨⟨.cls, desc⟩, text⟩]
  | [] => .failure text [⟨⟨.cls, desc⟩, text⟩]

/-- Lowering of the any-character construct (`Any` in the engine): consumes
one character when the input is non-empty. -/
def anyRun (text : List Char) : PResult Val :=
  match text with
  | c :: rest => .success (.str [c]) rest []
  | [] => .failure text [⟨⟨.anyChar, "any character"⟩, text⟩]

/-- The loop body of `First.toReturnCode` (ordered choice): try each
alternative in declared order, pushing every alternative's
`failedExpectations`; return the first success (with the accumulated
failures), or a failure at the original input carrying all of them. -/
def firstGo {α : Type} (text : List Char) :
    List (ProcO α) → List FailedExpectation → Option (PResult α)
  | [], fes => some (.failure text fes)
  | f :: rest, fes =>
    match f text with
    | none => none
    | some (.success v rem rfes) => some (.success v rem (fes ++ rfes))
    | some (.failure _ rfes) => firstGo text rest (fes ++ rfes)

/-- `First.toReturnCode`: ordered choice over the listed alternatives. -/
def firstRun {α : Type} (funcs : List (ProcO α)) (text : List Char) :
    Option (PResult α) :=
  firstGo text funcs []

/-- `Invert.toCode` (lowering of `!e`): succeeds with `undefined` and the
unchanged remainder when `e` fails, fails at the unchanged remainder when
`e` succeeds; both branches carry an empty `failedExpectations` list. -/
def invertRun {α : Type} (func : ProcO α) (remainder : List Char) :
    Option (PResult Val) :=
  match func remainder with
  | none => none
  | some (.success _ _ _) => some (.failure remainder [])
  | some (.failure _ _) => some (.success .und remainder [])

/-- The body of `Parser` (the root wrapper): run the first rule; on success
with a fully consumed input return that result unchanged, on success with a
non-empty remainder return a failure holding a single end-of-input
expectation recorded at that remainder; failures pass through. -/
def parserRun {α : Type} (func : ProcO α) (text : List Char) :
    Option (PResult α) :=
  match func text with
  | none => none
  | some (.success v rem fes) =>
    if rem.length = 0 then some (.success v rem fes)
    else some (.failure rem [⟨⟨.endOfInput, "end of input"⟩, rem⟩])
  | some (.failure rem fes) => some (.failure rem fes)

/-- `getLine` from the runtime: line number (1-based) at `offset`, counting
`\r`, `\n` and `\r\n` (the latter as a single break, skipping the paired
`\n`) among the first `offset` characters of the input. -/
def getLineAux (line : Nat) : List Char → Nat → Nat
  | _, 0 => line
  | [], _ + 1 => line
  | c :: rest, ofs + 1 =>
    if c = '\r' then
      match rest with
      | '\n' :: rest2 => getLineAux (line + 1) rest2 (ofs - 1)
      | _ => getLineAux (line + 1) rest ofs
    else if c = '\n' then getLineAux (line + 1) rest ofs
    else getLineAux line rest ofs

/-- `getLine(input, offset)` from the runtime. -/
def getLine (input : List Char) (offset : Nat) : Nat :=
  getLineAux 1 input offset

/-- `getColumn(input, offset)` from the runtime: walks backwards from
`offset` until a line break (or the start of input), counting columns from
1. -/
def getColumn (input : List Char) : Nat → Nat
  | 0 => 1
  | i + 1 =>
    if input.get? i = some '\n' ∨ input.get? i = some '\r' then 1
    else getColumn input i + 1

/-- `Location` from the runtime: line/column/offset. -/
structure Location : Type where
  line : Nat
  column : Nat
  offset : Nat
deriving DecidableEq, Repr

/-- `LocationRange` from the runtime (the grammar-source tag is not
modelled). -/
structure LocationRange : Type where
  start : Location
  endPos : Location
deriving DecidableEq, Repr

/-- `getLocation(source, input, start, remainder)` from the runtime: offsets
are distances from the start of the input, lines and columns are computed by
`getLine`/`getColumn` at those offsets. -/
def getLocation (input start remainder : List Char) : LocationRange :=
  { start :=
      { offset := input.length - start.length
        line := getLine input (input.length - start.length)
        column := getColumn input (input.length - start.length) }
    endPos :=
      { offset := input.length - remainder.length
        line := getLine input (input.length - remainder.length)
        column := getColumn input (input.length - remainder.length) } }

/-- The data carried by the `SyntaxError` raised by the generated `parse`
entry point: `expected`, `found` (one character, or empty for the
end-of-input marker) and `location`. -/
structure SyntaxErrorData : Type where
  expected : List Expectation
  found : List Char
  location : LocationRange
deriving DecidableEq, Repr

/-- The failure-selection loop of the generated `parse` entry point: starting
from the whole input, keep the shortest remainder seen so far and collect
exactly the failed expectations whose remainder has that length. -/
def selectGo (remainder : List Char) (acc : List FailedExpectation) :
    List FailedExpectation → List Char × List FailedExpectation
  | [] => (remainder, acc)
  | e :: rest =>
    let st :=
      if e.remainder.length < remainder.length then (e.remainder, [])
      else (remainder, acc)
    let st2 :=
      if e.remainder.length = st.1.length then (st.1, st.2 ++ [e]) else st
    selectGo st2.1 st2.2 rest

/-- The generated `parse` entry point: run the root procedure; on success
return its value; on failure select the furthest-progress failed
expectations and raise a syntax error carrying their expectations, the first
character of the selected remainder (empty = end-of-input marker) and the
location at that offset. -/
def parseEntry {α : Type} (parser : ProcO α) (input : List Char) :
    Option (Except SyntaxErrorData α) :=
  match parser input with
  | none => none
  | some (.success v _ _) => some (.ok v)
  | some (.failure _ fes) =>
    let sel := selectGo input [] fes
    some (.error
      { expected := sel.2.map (·.expectation)
        found := sel.1.take 1
        location := getLocation input sel.1 sel.1 })

/-- State of the `do/while` loop of `Repetition.toReturnCode` when it exits:
the accumulated `values`, the pushed `failedExpectations`, the committed
`remainder` (only advanced after a successful element match), and the
`success` flag and `remainder` of the `result` variable as the loop left it
(the fields of `result` the code after the loop reads). -/
structure RepState (α : Type) : Type where
  values : List α
  failedExpectations : List FailedExpectation
  remainder : List Char
  lastSuccess : Bool
  lastRemainder : List Char

/-- The `do/while` loop of `Repetition.toReturnCode`, fuel-indexed (`none` =
the generated loop does not terminate within `fuel` iterations, or a callee
diverges).  Each iteration: from the second one on, when a delimiter is
present, try it first and break on its failure without pushing its
expectations; then run the element procedure on the post-delimiter input,
push its failed expectations, break on failure, otherwise commit its
remainder, push its value and continue while under the `max` bound. -/
def repLoop {α β : Type} (func : ProcO α) (delim : Option (ProcO β))
    (maxB : Option Nat) :
    Nat → List α → List FailedExpectation → List Char →
      Option (RepState α)
  | 0, _, _, _ => none
  | fuel + 1, values, fes, remainder =>
    match (match delim with
           | some d =>
             if values.length > 0 then
               match d remainder with
               | none => none
               | some (.failure drem _) =>
                 some (.error ⟨values, fes, remainder, false, drem⟩)
               | some (.success _ drem _) => some (.ok drem)
             else some (.ok remainder)
           | none =>
             some (.ok remainder) :
             Option (Except (RepState α) (List Char))) with
    | none => none
    | some (.error st) => some st
    | some (.ok r) =>
      match func r with
      | none => none
      | some (.failure frem ffes) =>
        some ⟨values, fes ++ ffes, remainder, false, frem⟩
      | some (.success v frem ffes) =>
        let values2 := values ++ [v]
        if (match maxB with
            | some m => decide (values2.length < m)
            | none => true) = true then
          repLoop func delim maxB fuel values2 (fes ++ ffes) frem
        else
          some ⟨values2, fes ++ ffes, frem, true, frem⟩

/-- `Repetition.toReturnCode`: run the loop from the given input and apply
the trailing `min` check — when `min` is non-zero, fewer than `min`
accumulated values with a failed last result yields a failure at the last
result's remainder, anything else yields a success with the accumulated
values and committed remainder. -/
def repetitionRun {α β : Type} (func : ProcO α) (delim : Option (ProcO β))
    (minB : Nat) (maxB : Option Nat) (text : List Char) :
    Option (PResult (List α)) :=
  match repLoop func delim maxB (text.length + maxB.getD 0 + 2) [] [] text with
  | none => none
  | some st =>
    if minB ≠ 0 then
      if st.values.length < minB ∧ st.lastSuccess = false then
        some (.failure st.lastRemainder st.failedExpectations)
      else some (.success st.values st.remainder st.failedExpectations)
    else some (.success st.values st.remainder st.failedExpectations)

/-- The element chain of `Reduction.toReturnCode` (sequence lowering, the
all-procedure path): run each element on the threaded remainder, pushing its
failed expectations; the first failure aborts with the accumulated
expectations at that element's remainder; success collects every element's
value. -/
def seqGo (procs : List (ProcO Val)) (fes : List FailedExpectation)
    (vals : List Val) (remainder : List Char) :
    Option (PResult (List Val)) :=
  match procs with
  | [] => some (.success vals remainder fes)
  | f :: rest =>
    match f remainder with
    | none => none
    | some (.failure rrem rfes) => some (.failure rrem (fes ++ rfes))
    | some (.success v rrem rfes) =>
      seqGo rest (fes ++ rfes) (vals ++ [v]) rrem

/-- `Reduction.toReturnCode` packaging: on success the value is the tuple of
element values, or the picked element's value when a pick label is present
(`result${pickIndex}.value`). -/
def reductionRun (procs : List (ProcO Val)) (pickIndex : Option Nat)
    (text : List Char) : Option (PResult Val) :=
  match seqGo procs [] [] text with
  | none => none
  | some (.failure rem fes) => some (.failure rem fes)
  | some (.success vs rem fes) =>
    match pickIndex with
    | some i => some (.success ((vs.get? i).getD .und) rem fes)
    | none => some (.success (.list vs) rem fes)

/-- The body of `Optional` (lowering of `e?`): always succeeds — on failure
of the wrapped procedure, substitute `null` at the original input while
propagating the attempt's failed expectations. -/
def optionalRun (func : ProcO Val) (text : List Char) :
    Option (PResult Val) :=
  match func text with
  | none => none
  | some (.success v rem fes) => some (.success v rem fes)
  | some (.failure _ fes) => some (.success .nul text fes)

/-- `Extract.toReturnCode` (the combinator path of text capture `$e`): run
the wrapped procedure and, on success, replace its value with the slice of
the input covering exactly the consumed span. -/
def extractRun (func : ProcO Val) (remainder : List Char) :
    Option (PResult Val) :=
  match func remainder with
  | none => none
  | some (.success _ rrem rfes) =>
    some (.success (.str (remainder.take (remainder.length - rrem.length)))
      rrem rfes)
  | some (.failure rrem rfes) => some (.failure rrem rfes)

/-- PEG constructs whose lowerings the engine's node catalog emits; the
subset of the grammar AST needed by the claims (rule references are resolved
upstream, so sub-expressions appear inline). -/
inductive GExpr : Type where
  | lit (value : List Char)
  | charCls (p : Char → Bool) (desc : String)
  | anyChar
  | seq (elements : List GExpr) (pickIndex : Option Nat)
  | choice (alternatives : List GExpr)
  | rep (element : GExpr) (minB : Nat) (maxB : Option Nat)
      (delim : Option GExpr)
  | txt (element : GExpr)
  | neg (element : GExpr)
  | opt (element : GExpr)

mutual

/-- The general combinator lowering of each construct (the code path the
engine emits when no synthesized-pattern shortcut applies; `none` = the
generated code diverges).  The lowering the engine actually prefers —
`Capture` for text capture and the `RegExpLiteral` element shortcut inside
picked sequences — is `interpE` below. -/
def interp : GExpr → List Char → Option (PResult Val)
  | .lit v, text => some (literalRun v text)
  | .charCls p desc, text => some (classRun p desc text)
  | .anyChar, text => some (anyRun text)
  | .seq es pick, text => reductionRun (interpList es) pick text
  | .choice es, text => firstRun (interpList es) text
  | .rep e minB maxB dOpt, text =>
    match
      repetitionRun (interp e)
        (match dOpt with
         | some d => some (interp d)
         | none => (none : Option (ProcO Val))) minB maxB text with
    | none => none
    | some (.success vs rem fes) => some (.success (.list vs) rem fes)
    | some (.failure rem fes) => some (.failure rem fes)
  | .txt e, text => extractRun (interp e) text
  | .neg e, text => invertRun (interp e) text
  | .opt e, text => optionalRun (interp e) text

/-- The procedures of a list of sub-expressions (sequence elements, choice
alternatives). -/
def interpList : List GExpr → List (ProcO Val)
  | [] => []
  | e :: rest => interp e :: interpList rest

end

mutual

/-- `Function.allowsZeroLength` as each node class sets it: `false` for
literal, class and any; a sequence allows zero length while every element
does; a choice when some alternative does; a repetition when its `min` is
zero or its element allows it; text follows its subtree; negation and
optional always allow zero length. -/
def allowsZero : GExpr → Bool
  | .lit _ => false
  | .charCls _ _ => false
  | .anyChar => false
  | .seq es _ => allowsZeroAll es
  | .choice es => allowsZeroAny es
  | .rep e minB _ _ => decide (minB = 0) || allowsZero e
  | .txt e => allowsZero e
  | .neg _ => true
  | .opt _ => true

/-- Conjunction of `allowsZero` over sequence elements. -/
def allowsZeroAll : List GExpr → Bool
  | [] => true
  | e :: rest => allowsZero e && allowsZeroAll rest

/-- Disjunction of `allowsZero` over choice alternatives. -/
def allowsZeroAny : List GExpr → Bool
  | [] => false
  | e :: rest => allowsZero e || allowsZeroAny rest

end

/-- JS `[...new Set(list)]`: order-preserving first-occurrence
deduplication. -/
def dedupExps (l : List Expectation) : List Expectation :=
  l.foldl (fun acc x => if x ∈ acc then acc else acc ++ [x]) []

mutual

/-- `Function.expectations` as each node class sets it: one expectation for
the leaves (literal, class, any); a sequence accumulates the `Set`-dedup of
its elements' expectations up to and including the first element that does
not allow zero length; a choice takes the `Set`-dedup of all alternatives'
expectations flattened; repetition, text and optional take their subtree's;
negation (`SimpleNot`) keeps the base class's empty default. -/
def expects : GExpr → List Expectation
  | .lit v => [⟨.literal, String.mk v⟩]
  | .charCls _ d => [⟨.cls, d⟩]
  | .anyChar => [⟨.anyChar, "any character"⟩]
  | .seq es _ => seqExpGo [] es
  | .choice es => dedupExps (expectsFlat es)
  | .rep e _ _ _ => expects e
  | .txt e => expects e
  | .neg _ => []
  | .opt e => expects e

/-- The accumulation loop of `Sequence`'s constructor: add each element's
expectations (deduplicating) and stop after the first element that cannot
match the empty string. -/
def seqExpGo : List Expectation → List GExpr → List Expectation
  | acc, [] => acc
  | acc, e :: rest =>
    if allowsZero e = true then seqExpGo (dedupExps (acc ++ expects e)) rest
    else dedupExps (acc ++ expects e)

/-- Concatenation of the alternatives' expectation lists. -/
def expectsFlat : List GExpr → List Expectation
  | [] => []
  | e :: rest => expects e ++ expectsFlat rest

end

theorem suffix_take_append {r t : List Char} (h : r <:+ t) :
    t.take (t.length - r.length) ++ r = t := by
  obtain ⟨u, rfl⟩ := h
  rw [List.length_append, Nat.add_sub_cancel, List.take_left]

/-- A procedure preserves the suffix invariant when every result's remainder
is a suffix of the input it was given. -/
def KeepsSuffix {α : Type} (g : ProcO α) : Prop :=
  ∀ s r, g s = some r → PResult.remainder r <:+ s

theorem literalRun_suffix (value : List Char) :
    KeepsSuffix (fun s => some (literalRun value s)) := by
  intro s r h
  simp only [literalRun, Option.some.injEq] at h
  split at h <;> cases h
  · exact List.drop_suffix _ _
  · exact List.suffix_rfl

theorem classRun_suffix (p : Char → Bool) (desc : String) :
    KeepsSuffix (fun s => some (classRun p desc s)) := by
  intro s r h
  cases s with
  | nil =>
    simp only [classRun, Option.some.injEq] at h
    cases h
    exact List.suffix_rfl
  | cons c cs =>
    simp only [classRun, Option.some.injEq] at h
    split at h <;> cases h
    · exact List.suffix_cons _ _
    · exact List.suffix_rfl

theorem anyRun_suffix : KeepsSuffix (fun s => some (anyRun s)) := by
  intro s r h
  cases s with
  | nil =>
    simp only [anyRun, Option.some.injEq] at h
    cases h
    exact List.suffix_rfl
  | cons c cs =>
    simp only [anyRun, Option.some.injEq] at h
    cases h
    exact List.suffix_cons _ _

theorem firstGo_suffix {α : Type} (text : List Char)
    (funs : List (ProcO α)) (acc : List FailedExpectation)
    (hf : ∀ g ∈ funs, ∀ s r, g s = some r → PResult.remainder r <:+ s)
    (r : PResult α) (h : firstGo text funs acc = some r) :
    PResult.remainder r <:+ text := by
  induction funs generalizing acc with
  | nil =>
    simp only [firstGo, Option.some.injEq] at h
    cases h
    exact List.suffix_rfl
  | cons g rest ih =>
    cases hg : g text with
    | none =>
      simp only [firstGo, hg] at h
      exact Option.noConfusion h
    | some rg =>
      cases rg with
      | success v rem rfes =>
        simp only [firstGo, hg, Option.some.injEq] at h
        cases h
        have := hf g (by simp) text _ hg
        simpa [PResult.remainder] using this
      | failure rem rfes =>
        simp only [firstGo, hg] at h
        exact ih (acc ++ rfes)
          (fun g2 (hg2 : g2 ∈ rest) => hf g2 (List.mem_cons_of_mem g hg2)) h

theorem seqGo_suffix (procs : List (ProcO Val))
    (hf : ∀ g ∈ procs, ∀ s r, g s = some r → PResult.remainder r <:+ s) :
    ∀ (fes : List FailedExpectation) (vals : List Val)
      (remainder : List Char) (r : PResult (List Val)),
      seqGo procs fes vals remainder = some r →
      PResult.remainder r <:+ remainder := by
  induction procs with
  | nil =>
    intro fes vals remainder r h
    simp only [seqGo, Option.some.injEq] at h
    cases h
    exact List.suffix_rfl
  | cons g rest ih =>
    intro fes vals remainder r h
    cases hg : g remainder with
    | none =>
      simp only [seqGo, hg] at h
      exact Option.noConfusion h
    | some rg =>
      cases rg with
      | failure rrem rfes =>
        simp only [seqGo, hg, Option.some.injEq] at h
        cases h
        have := hf g (by simp) remainder _ hg
        simpa [PResult.remainder] using this
      | success v rrem rfes =>
        simp only [seqGo, hg] at h
        have h1 := ih
          (fun g2 (hg2 : g2 ∈ rest) => hf g2 (List.mem_cons_of_mem g hg2))
          _ _ _ _ h
        have h2 := hf g (by simp) remainder _ hg
        simp only [PResult.remainder] at h2
        exact h1.trans h2

theorem repLoop_suffix {α β : Type} (func : ProcO α)
    (delim : Option (ProcO β)) (maxB : Option Nat)
    (hfunc : ∀ s r, func s = some r → PResult.remainder r <:+ s)
    (hdelim : ∀ d, delim = some d →
      ∀ s r, d s = some r → PResult.remainder r <:+ s) :
    ∀ (fuel : Nat) (values : List α) (fes : List FailedExpectation)
      (remainder : List Char) (st : RepState α),
      repLoop func delim maxB fuel values fes remainder = some st →
      st.remainder <:+ remainder ∧ st.lastRemainder <:+ remainder := by
  intro fuel
  induction fuel with
  | zero =>
    intro values fes remainder st h
    simp only [repLoop] at h
    exact Option.noConfusion h
  | succ fuel ih =>
    intro values fes remainder st h
    cases hdo : delim with
    | some d =>
      rw [hdo] at ih
      by_cases hv : values.length > 0
      · cases hd : d remainder with
        | none =>
          simp only [repLoop, hdo, if_pos hv, hd] at h
          exact Option.noConfusion h
        | some rd =>
          cases rd with
          | failure drem dfes =>
            simp only [repLoop, hdo, if_pos hv, hd, Option.some.injEq] at h
            cases h
            exact ⟨List.suffix_rfl, hdelim d hdo remainder _ hd⟩
          | success dv drem dfes =>
            have hdrem : drem <:+ remainder := hdelim d hdo remainder _ hd
            cases hfr : func drem with
            | none =>
              simp only [repLoop, hdo, if_pos hv, hd, hfr] at h
              exact Option.noConfusion h
            | some rf =>
              cases rf with
              | failure frem ffes =>
                simp only [repLoop, hdo, if_pos hv, hd, hfr,
                  Option.some.injEq] at h
                cases h
                exact ⟨List.suffix_rfl, (hfunc drem _ hfr).trans hdrem⟩
              | success v frem ffes =>
                have hfrem : frem <:+ remainder :=
                  (hfunc drem _ hfr).trans hdrem
                simp only [repLoop, hdo, if_pos hv, hd, hfr] at h
                split at h
                · have := ih _ _ _ _ h
                  exact ⟨this.1.trans hfrem, this.2.trans hfrem⟩
                · simp only [Option.some.injEq] at h
                  cases h
                  exact ⟨hfrem, hfrem⟩
      · cases hfr : func remainder with
        | none =>
          simp only [repLoop, hdo, if_neg hv, hfr] at h
          exact Option.noConfusion h
        | some rf =>
          cases rf with
          | failure frem ffes =>
            simp only [repLoop, hdo, if_neg hv, hfr, Option.some.injEq] at h
            cases h
            exact ⟨List.suffix_rfl, hfunc remainder _ hfr⟩
          | success v frem ffes =>
            have hfrem : frem <:+ remainder := hfunc remainder _ hfr
            simp only [repLoop, hdo, if_neg hv, hfr] at h
            split at h
            · have := ih _ _ _ _ h
              exact ⟨this.1.trans hfrem, this.2.trans hfrem⟩
            · simp only [Option.some.injEq] at h
              cases h
              exact ⟨hfrem, hfrem⟩
    | none =>
      rw [hdo] at ih
      cases hfr : func remainder with
      | none =>
        simp only [repLoop, hdo, hfr] at h
        exact Option.noConfusion h
      | some rf =>
        cases rf with
        | failure frem ffes =>
          simp only [repLoop, hdo, hfr, Option.some.injEq] at h
          cases h
          exact ⟨List.suffix_rfl, hfunc remainder _ hfr⟩
        | success v frem ffes =>
          have hfrem : frem <:+ remainder := hfunc remainder _ hfr
          simp only [repLoop, hdo, hfr] at h
          split at h
          · have := ih _ _ _ _ h
            exact ⟨this.1.trans hfrem, this.2.trans hfrem⟩
          · simp only [Option.some.injEq] at h
            cases h
            exact ⟨hfrem, hfrem⟩

theorem repetitionRun_suffix {α β : Type} (func : ProcO α)
    (delim : Option (ProcO β)) (minB : Nat) (maxB : Option Nat)
    (hfunc : ∀ s r, func s = some r → PResult.remainder r <:+ s)
    (hdelim : ∀ d, delim = some d →
      ∀ s r, d s = some r → PResult.remainder r <:+ s)
    (text : List Char) (r : PResult (List α))
    (h : repetitionRun func delim minB maxB text = some r) :
    PResult.remainder r <:+ text := by
  cases hl : repLoop func delim maxB (text.length + maxB.getD 0 + 2) [] [] text with
  | none =>
    simp only [repetitionRun, hl] at h
    exact Option.noConfusion h
  | some st =>
    have hs := repLoop_suffix func delim maxB hfunc hdelim _ _ _ _ _ hl
    simp only [repetitionRun, hl] at h
    split at h
    · split at h <;> simp only [Option.some.injEq] at h <;> cases h
      · exact hs.2
      · exact hs.1
    · simp only [Option.some.injEq] at h
      cases h
      exact hs.1

mutual

theorem interp_suffix (e : GExpr) :
    ∀ (text : List Char) (r : PResult Val),
      interp e text = some r → PResult.remainder r <:+ text := by
  cases e with
  | lit value =>
    intro text r h
    simp only [interp, Option.some.injEq] at h
    cases h
    exact literalRun_suffix value text _ rfl
  | charCls p desc =>
    intro text r h
    simp only [interp, Option.some.injEq] at h
    cases h
    exact classRun_suffix p desc text _ rfl
  | anyChar =>
    intro text r h
    simp only [interp, Option.some.injEq] at h
    cases h
    exact anyRun_suffix text _ rfl
  | seq es pick =>
    intro text r h
    simp only [interp, reductionRun] at h
    cases hs : seqGo (interpList es) [] [] text with
    | none =>
      rw [hs] at h
      exact Option.noConfusion h
    | some rs =>
      rw [hs] at h
      have hsuf := seqGo_suffix (interpList es)
        (interpList_suffix es) _ _ _ _ hs
      cases rs with
      | failure rem fes =>
        simp only [Option.some.injEq] at h
        cases h
        simpa [PResult.remainder] using hsuf
      | success vs rem fes =>
        cases pick with
        | some i =>
          simp only [Option.some.injEq] at h
          cases h
          simpa [PResult.remainder] using hsuf
        | none =>
          simp only [Option.some.injEq] at h
          cases h
          simpa [PResult.remainder] using hsuf
  | choice es =>
    intro text r h
    simp only [interp] at h
    exact firstGo_suffix text (interpList es) [] (interpList_suffix es) r h
  | rep el minB maxB dOpt =>
    intro text r h
    cases dOpt with
    | none =>
      simp only [interp] at h
      cases hrr : repetitionRun (interp el) (none : Option (ProcO Val))
          minB maxB text with
      | none =>
        rw [hrr] at h
        exact Option.noConfusion h
      | some rr =>
        rw [hrr] at h
        have hsuf := repetitionRun_suffix (interp el)
          (none : Option (ProcO Val)) minB maxB
          (fun s r2 h2 => interp_suffix el s r2 h2)
          (fun d2 hd2 s r2 h2 => Option.noConfusion hd2)
          text rr hrr
        cases rr with
        | failure rem fes =>
          simp only [Option.some.injEq] at h
          cases h
          simpa [PResult.remainder] using hsuf
        | success vs rem fes =>
          simp only [Option.some.injEq] at h
          cases h
          simpa [PResult.remainder] using hsuf
    | some d =>
      simp only [interp] at h
      cases hrr : repetitionRun (interp el) (some (interp d))
          minB maxB text with
      | none =>
        rw [hrr] at h
        exact Option.noConfusion h
      | some rr =>
        rw [hrr] at h
        have hsuf := repetitionRun_suffix (interp el) (some (interp d))
          minB maxB
          (fun s r2 h2 => interp_suffix el s r2 h2)
          (fun d2 hd2 s r2 h2 => by
            simp only [Option.some.injEq] at hd2
            cases hd2
            exact interp_suffix d s r2 h2)
          text rr hrr
        cases rr with
        | failure rem fes =>
          simp only [Option.some.injEq] at h
          cases h
          simpa [PResult.remainder] using hsuf
        | success vs rem fes =>
          simp only [Option.some.injEq] at h
          cases h
          simpa [PResult.remainder] using hsuf
  | txt el =>
    intro text r h
    simp only [interp, extractRun] at h
    cases he : interp el text with
    | none =>
      rw [he] at h
      exact Option.noConfusion h
    | some re =>
      rw [he] at h
      have hsuf := interp_suffix el text re he
      cases re with
      | success v rrem rfes =>
        simp only [Option.some.injEq] at h
        cases h
        simpa [PResult.remainder] using hsuf
      | failure rrem rfes =>
        simp only [Option.some.injEq] at h
        cases h
        simpa [PResult.remainder] using hsuf
  | neg el =>
    intro text r h
    simp only [interp, invertRun] at h
    cases he : interp el text with
    | none =>
      rw [he] at h
      exact Option.noConfusion h
    | some re =>
      rw [he] at h
      cases re with
      | success v rrem rfes =>
        simp only [Option.some.injEq] at h
        cases h
        exact List.suffix_rfl
      | failure rrem rfes =>
        simp only [Option.some.injEq] at h
        cases h
        exact List.suffix_rfl
  | opt el =>
    intro text r h
    simp only [interp, optionalRun] at h
    cases he : interp el text with
    | none =>
      rw [he] at h
      exact Option.noConfusion h
    | some re =>
      rw [he] at h
      cases re with
      | success v rrem rfes =>
        simp only [Option.some.injEq] at h
        cases h
        have hsuf := interp_suffix el text _ he
        simpa [PResult.remainder] using hsuf
      | failure rrem rfes =>
        simp only [Option.some.injEq] at h
        cases h
        exact List.suffix_rfl

theorem interpList_suffix (es : List GExpr) :
    ∀ g ∈ interpList es, ∀ (s : List Char) (r : PResult Val),
      g s = some r → PResult.remainder r <:+ s := by
  cases es with
  | nil =>
    intro g hg
    simp only [interpList] at hg
    exact absurd hg (List.not_mem_nil g)
  | cons e rest =>
    intro g hg
    simp only [interpList] at hg
    rcases List.mem_cons.mp hg with h1 | h2
    · cases h1
      exact interp_suffix e
    · exact interpList_suffix rest g h2

end

/-- Lifting of a leaf literal procedure into the `Option`-carrying procedure
shape (generated sub-procedures are total). -/
def litP (value : List Char) : ProcO Val :=
  fun s => some (literalRun value s)

/-- C6: when the first rule's procedure succeeds but leaves a non-empty
remainder, the root wrapper returns a failure carrying exactly one
end-of-input expectation recorded at that remainder. -/
theorem C6_root_end_of_input {α : Type} (func : ProcO α) (text : List Char)
    (v : α) (rem : List Char) (fes : List FailedExpectation)
    (hsucc : func text = some (.success v rem fes)) (hne : rem ≠ []) :
    parserRun func text =
      some (.failure rem [⟨⟨.endOfInput, "end of input"⟩, rem⟩]) := by
  simp only [parserRun, hsucc]
  rw [if_neg (by simpa [List.length_eq_zero] using hne)]

/-- Witness for C6: a literal that matches a strict prefix. -/
theorem C6_witness :
    litP ['a'] ['a', 'b'] =
      some (.success (Val.str ['a']) ['b'] []) ∧
    parserRun (litP ['a']) ['a', 'b'] =
      some (.failure ['b'] [⟨⟨.endOfInput, "end of input"⟩, ['b']⟩]) :=
  ⟨rfl, C6_root_end_of_input (litP ['a']) ['a', 'b'] _ _ _ rfl (by simp)⟩

/-- Counterexample for C5: negation of a succeeding expression fails, but its
`failedExpectations` list is empty — no "not matching e" expectation is
surfaced (the claim asserts one is). -/
theorem C5_counterexample :
    interp (GExpr.lit ['a']) ['a'] =
        some (.success (Val.str ['a']) [] []) ∧
    invertRun (interp (GExpr.lit ['a'])) ['a'] =
        some (.failure ['a'] []) ∧
    ∀ fe : FailedExpectation,
      fe ∉ PResult.failedExpectations
        (PResult.failure (α := Val) ['a'] []) :=
  ⟨rfl, rfl, by simp [PResult.failedExpectations]⟩

/-- C5 (amended): the lowering of `!e` matches zero length and never consumes
input — it succeeds with an absent value and the unchanged remainder exactly
when `e` fails, and fails at the unchanged remainder exactly when `e`
succeeds; in both cases the surfaced `failedExpectations` list is empty (no
"not matching" expectation exists in the newer engine). -/
theorem C5_negation_zero_length {α : Type} (func : ProcO α)
    (text : List Char) (r : PResult α) (h : func text = some r) :
    invertRun func text =
      some (if r.isSuccessB = true then PResult.failure text []
            else PResult.success Val.und text []) := by
  cases r with
  | success v rem fes => simp [invertRun, h, PResult.isSuccessB]
  | failure rem fes => simp [invertRun, h, PResult.isSuccessB]

/-- Witness for C5 at a failing wrapped expression. -/
theorem C5_witness :
    litP ['a'] ['b'] =
      some (.failure ['b'] [⟨⟨.literal, "a"⟩, ['b']⟩]) ∧
    invertRun (litP ['a']) ['b'] =
      some (if (PResult.failure (α := Val) ['b']
          [⟨⟨.literal, "a"⟩, ['b']⟩]).isSuccessB = true
        then PResult.failure ['b'] []
        else PResult.success Val.und ['b'] []) :=
  ⟨rfl, C5_negation_zero_length (litP ['a']) ['b'] _ rfl⟩

/-- The `failedExpectations` an alternative contributes when tried on the
given input. -/
def fesOf {α : Type} (g : ProcO α) (text : List Char) :
    List FailedExpectation :=
  match g text with
  | some r => r.failedExpectations
  | none => []

theorem firstGo_all_fail {α : Type} (text : List Char) :
    ∀ (funs : List (ProcO α)) (acc : List FailedExpectation),
      (∀ g ∈ funs, ∃ rem fes, g text = some (.failure rem fes)) →
      firstGo text funs acc =
        some (.failure text
          (acc ++ (funs.map (fun g => fesOf g text)).flatten)) := by
  intro funs
  induction funs with
  | nil => intro acc h; simp [firstGo]
  | cons g rest ih =>
    intro acc h
    obtain ⟨rem, fes, hg⟩ := h g (by simp)
    have hfes : fesOf g text = fes := by
      simp [fesOf, hg, PResult.failedExpectations]
    rw [show firstGo text (g :: rest) acc
        = firstGo text rest (acc ++ fes) by
      simp [firstGo, hg]]
    rw [ih (acc ++ fes)
      (fun g2 hg2 => h g2 (List.mem_cons_of_mem g hg2))]
    simp [hfes, List.append_assoc]

theorem firstGo_first_success {α : Type} (text : List Char) :
    ∀ (pre : List (ProcO α)) (f : ProcO α) (post : List (ProcO α))
      (acc : List FailedExpectation) (v : α) (rem : List Char)
      (fes : List FailedExpectation),
      (∀ g ∈ pre, ∃ rem2 fes2, g text = some (.failure rem2 fes2)) →
      f text = some (.success v rem fes) →
      firstGo text (pre ++ f :: post) acc =
        some (.success v rem
          (acc ++ (pre.map (fun g => fesOf g text)).flatten ++ fes)) := by
  intro pre
  induction pre with
  | nil =>
    intro f post acc v rem fes hpre hf
    simp [firstGo, hf]
  | cons g rest ih =>
    intro f post acc v rem fes hpre hf
    obtain ⟨rem2, fes2, hg⟩ := hpre g (by simp)
    have hfes : fesOf g text = fes2 := by
      simp [fesOf, hg, PResult.failedExpectations]
    rw [show firstGo text ((g :: rest) ++ f :: post) acc
        = firstGo text (rest ++ f :: post) (acc ++ fes2) by
      simp [firstGo, hg]]
    rw [ih f post (acc ++ fes2) v rem fes
      (fun g2 hg2 => hpre g2 (List.mem_cons_of_mem g hg2)) hf]
    simp [hfes, List.append_assoc]

theorem selectGo_spec :
    ∀ (l : List FailedExpectation) (rem : List Char)
      (acc : List FailedExpectation),
      ((selectGo rem acc l).1 = rem ∨
        ∃ e ∈ l, (selectGo rem acc l).1 = e.remainder) ∧
      (selectGo rem acc l).1.length ≤ rem.length ∧
      (∀ e ∈ l, (selectGo rem acc l).1.length ≤ e.remainder.length) ∧
      (selectGo rem acc l).2 =
        (if (selectGo rem acc l).1.length = rem.length then acc else []) ++
          l.filter
            (fun e => e.remainder.length = (selectGo rem acc l).1.length) := by
  intro l
  induction l with
  | nil =>
    intro rem acc
    refine ⟨Or.inl rfl, le_refl _, by simp, ?_⟩
    simp [selectGo]
  | cons e rest ih =>
    intro rem acc
    by_cases h1 : e.remainder.length < rem.length
    · have hstep : selectGo rem acc (e :: rest) =
          selectGo e.remainder [e] rest := by
        simp [selectGo, h1]
      obtain ⟨ihd, ihle, ihall, ihacc⟩ := ih e.remainder [e]
      rw [hstep]
      refine ⟨?_, ?_, ?_, ?_⟩
      · rcases ihd with hr | ⟨e2, he2, hr⟩
        · exact Or.inr ⟨e, by simp, hr⟩
        · exact Or.inr ⟨e2, List.mem_cons_of_mem e he2, hr⟩
      · exact le_of_lt (lt_of_le_of_lt ihle h1)
      · intro e2 he2
        rcases List.mem_cons.mp he2 with h | h
        · cases h; exact ihle
        · exact ihall e2 h
      · have hne : (selectGo e.remainder [e] rest).1.length ≠ rem.length :=
          Nat.ne_of_lt (lt_of_le_of_lt ihle h1)
        rw [if_neg hne, ihacc, List.filter_cons]
        by_cases hsel : e.remainder.length =
            (selectGo e.remainder [e] rest).1.length
        · simp [hsel]
        · have : ¬ (selectGo e.remainder [e] rest).1.length =
              e.remainder.length := fun h => hsel h.symm
          simp [hsel, if_neg this]
    · by_cases h2 : e.remainder.length = rem.length
      · have hstep : selectGo rem acc (e :: rest) =
            selectGo rem (acc ++ [e]) rest := by
          simp [selectGo, h1, h2]
        obtain ⟨ihd, ihle, ihall, ihacc⟩ := ih rem (acc ++ [e])
        rw [hstep]
        refine ⟨?_, ihle, ?_, ?_⟩
        · rcases ihd with hr | ⟨e2, he2, hr⟩
          · exact Or.inl hr
          · exact Or.inr ⟨e2, List.mem_cons_of_mem e he2, hr⟩
        · intro e2 he2
          rcases List.mem_cons.mp he2 with h | h
          · cases h; rw [h2]; exact ihle
          · exact ihall e2 h
        · rw [ihacc, List.filter_cons]
          by_cases hR : (selectGo rem (acc ++ [e]) rest).1.length = rem.length
          · have he : e.remainder.length =
                (selectGo rem (acc ++ [e]) rest).1.length := by
              rw [hR, h2]
            simp [hR, he, List.append_assoc]
          · have he : ¬ e.remainder.length =
                (selectGo rem (acc ++ [e]) rest).1.length := by
              rw [h2]; exact fun h => hR h.symm
            simp [hR, he]
      · have hstep : selectGo rem acc (e :: rest) =
            selectGo rem acc rest := by
          simp [selectGo, h1, h2]
        obtain ⟨ihd, ihle, ihall, ihacc⟩ := ih rem acc
        rw [hstep]
        refine ⟨?_, ihle, ?_, ?_⟩
        · rcases ihd with hr | ⟨e2, he2, hr⟩
          · exact Or.inl hr
          · exact Or.inr ⟨e2, List.mem_cons_of_mem e he2, hr⟩
        · intro e2 he2
          rcases List.mem_cons.mp he2 with h | h
          · cases h
            have : rem.length ≤ e.remainder.length := Nat.le_of_not_lt h1
            exact le_trans ihle this
          · exact ihall e2 h
        · rw [ihacc, List.filter_cons]
          have he : ¬ e.remainder.length =
              (selectGo rem acc rest).1.length := by
            intro h
            have h3 := lt_of_le_of_ne (Nat.le_of_not_lt h1)
              (fun hx => h2 hx.symm)
            omega
          simp [he]

/-- C1: when the root procedure fails, the generated `parse` entry point
selects, among all accumulated failed expectations, exactly those whose
remainder length is minimal (the furthest position reached), and raises a
syntax error carrying those retained expectations, the first character of
that minimal remainder (the empty list when the remainder is empty, the
end-of-input marker), and a line/column/offset location computed at the
offset of that remainder. -/
theorem C1_parse_failure_selection {α : Type} (parser : ProcO α)
    (input frem : List Char) (fes : List FailedExpectation)
    (hfail : parser input = some (.failure frem fes))
    (hne : fes ≠ [])
    (hsuf : ∀ e ∈ fes, e.remainder <:+ input) :
    ∃ R : List Char,
      (selectGo input [] fes).1 = R ∧
      (∃ e ∈ fes, e.remainder = R) ∧
      (∀ e ∈ fes, R.length ≤ e.remainder.length) ∧
      R <:+ input ∧
      parseEntry parser input = some (.error
        { expected := (fes.filter
              (fun e => e.remainder.length = R.length)).map (·.expectation)
          found := R.take 1
          location :=
            { start := ⟨getLine input (input.length - R.length),
                getColumn input (input.length - R.length),
                input.length - R.length⟩
              endPos := ⟨getLine input (input.length - R.length),
                getColumn input (input.length - R.length),
                input.length - R.length⟩ } }) := by
  obtain ⟨hd, hle, hall, hacc⟩ := selectGo_spec fes input []
  refine ⟨(selectGo input [] fes).1, rfl, ?_, hall, ?_, ?_⟩
  · rcases hd with hr | ⟨e, he, hr⟩
    · obtain ⟨e0, he0⟩ := List.exists_mem_of_ne_nil fes hne
      refine ⟨e0, he0, ?_⟩
      have h1 : (selectGo input [] fes).1.length ≤ e0.remainder.length :=
        hall e0 he0
      have h2 : e0.remainder.length ≤ input.length :=
        List.IsSuffix.length_le (hsuf e0 he0)
      rw [hr] at h1 ⊢
      exact List.IsSuffix.eq_of_length (hsuf e0 he0) (le_antisymm h2 h1)
    · exact ⟨e, he, hr.symm⟩
  · rcases hd with hr | ⟨e, he, hr⟩
    · rw [hr]
    · rw [hr]; exact hsuf e he
  · have hsel2 : (selectGo input [] fes).2 =
        fes.filter
          (fun e => e.remainder.length = (selectGo input [] fes).1.length) := by
      rw [hacc, ite_self, List.nil_append]
    simp only [parseEntry, hfail, getLocation, hsel2]

/-- Witness for C1 on the furthest-failure example: a choice whose first
alternative progresses past one character before failing. -/
theorem C1_witness :
    interp (GExpr.choice
        [GExpr.seq [GExpr.lit ['a'], GExpr.lit ['b']] none,
         GExpr.lit ['c']]) ['a', 'x'] =
      some (.failure ['a', 'x']
        [⟨⟨.literal, "b"⟩, ['x']⟩, ⟨⟨.literal, "c"⟩, ['a', 'x']⟩]) ∧
    (∃ R : List Char,
      (selectGo ['a', 'x'] []
          [⟨⟨.literal, "b"⟩, ['x']⟩,
           ⟨⟨.literal, "c"⟩, ['a', 'x']⟩]).1 = R ∧
      (∃ e ∈ [⟨⟨.literal, "b"⟩, ['x']⟩,
          (⟨⟨.literal, "c"⟩, ['a', 'x']⟩ : FailedExpectation)],
        e.remainder = R) ∧
      (∀ e ∈ [⟨⟨.literal, "b"⟩, ['x']⟩,
          (⟨⟨.literal, "c"⟩, ['a', 'x']⟩ : FailedExpectation)],
        R.length ≤ e.remainder.length) ∧
      R <:+ ['a', 'x'] ∧
      parseEntry (interp (GExpr.choice
          [GExpr.seq [GExpr.lit ['a'], GExpr.lit ['b']] none,
           GExpr.lit ['c']])) ['a', 'x'] = some (.error
        { expected := ([⟨⟨.literal, "b"⟩, ['x']⟩,
              (⟨⟨.literal, "c"⟩, ['a', 'x']⟩ : FailedExpectation)].filter
              (fun e => e.remainder.length = R.length)).map (·.expectation)
          found := R.take 1
          location :=
            { start := ⟨getLine ['a', 'x'] (List.length ['a', 'x'] - R.length),
                getColumn ['a', 'x'] (List.length ['a', 'x'] - R.length),
                List.length ['a', 'x'] - R.length⟩
              endPos := ⟨getLine ['a', 'x'] (List.length ['a', 'x'] - R.length),
                getColumn ['a', 'x'] (List.length ['a', 'x'] - R.length),
                List.length ['a', 'x'] - R.length⟩ } })) :=
  ⟨rfl,
    C1_parse_failure_selection _ ['a', 'x'] ['a', 'x']
      [⟨⟨.literal, "b"⟩, ['x']⟩, ⟨⟨.literal, "c"⟩, ['a', 'x']⟩]
      rfl (by simp) (by decide)⟩

theorem repLoop_props {α β : Type} (func : ProcO α)
    (delim : Option (ProcO β)) (maxB : Option Nat) :
    ∀ (fuel : Nat) (values : List α) (fes : List FailedExpectation)
      (remainder : List Char) (st : RepState α),
      (∀ m, maxB = some m → values.length < m) →
      repLoop func delim maxB fuel values fes remainder = some st →
      (∃ tail, st.values = values ++ tail) ∧
      (∀ m, maxB = some m → st.values.length ≤ m) ∧
      (st.lastSuccess = true → ∃ m, maxB = some m ∧ st.values.length = m) ∧
      ((st.values = values ∧ st.remainder = remainder) ∨
        ∃ s v f2, func s = some (.success v st.remainder f2) ∧
          st.values.getLast? = some v) := by
  intro fuel
  induction fuel with
  | zero =>
    intro values fes remainder st hmax h
    simp only [repLoop] at h
    exact Option.noConfusion h
  | succ fuel ih =>
    intro values fes remainder st hmax h
    rcases hdo : delim with _ | d
    · rw [hdo] at ih h
      rcases hfr : func remainder with _ | rf
      · simp only [repLoop, hfr] at h
        exact Option.noConfusion h
      rcases rf with ⟨v, frem, ffes⟩ | ⟨frem, ffes⟩
      · simp only [repLoop, hfr] at h
        split at h
        next hcond =>
          have hmax2 : ∀ m, maxB = some m → (values ++ [v]).length < m := by
            intro m hm
            rw [hm] at hcond
            simpa using hcond
          obtain ⟨⟨tail, htail⟩, hmaxb, hlast, hdisj⟩ :=
            ih _ _ _ _ hmax2 h
          refine ⟨⟨[v] ++ tail, by simp [htail]⟩, hmaxb, hlast, ?_⟩
          rcases hdisj with ⟨hv2, hr2⟩ | hd2
          · refine Or.inr ⟨remainder, v, ffes, ?_, ?_⟩
            · rw [hr2]
              exact hfr
            · rw [hv2, List.getLast?_concat]
          · exact Or.inr hd2
        next hcond =>
          simp only [Option.some.injEq] at h
          cases h
          rcases hmb : maxB with _ | m
          · rw [hmb] at hcond
            exact absurd rfl hcond
          · rw [hmb] at hcond
            have hge : ¬ (values ++ [v]).length < m := by
              simpa using hcond
            have hlt := hmax m hmb
            refine ⟨⟨[v], rfl⟩, ?_, ?_,
              Or.inr ⟨remainder, v, ffes, hfr, by simp⟩⟩
            · intro m2 hm2
              injection hm2 with he
              subst he
              simp only [List.length_append, List.length_cons,
                List.length_nil] at hge ⊢
              omega
            · intro _
              refine ⟨m, rfl, ?_⟩
              simp only [List.length_append, List.length_cons,
                List.length_nil] at hge ⊢
              omega
      · simp only [repLoop, hfr, Option.some.injEq] at h
        cases h
        exact ⟨⟨[], by simp⟩, fun m hm => le_of_lt (hmax m hm),
          fun hls => absurd hls (by simp), Or.inl ⟨rfl, rfl⟩⟩
    · rw [hdo] at ih h
      by_cases hv : values.length > 0
      · rcases hd : d remainder with _ | rd
        · simp only [repLoop, if_pos hv, hd] at h
          exact Option.noConfusion h
        rcases rd with ⟨dv, drem, dfes⟩ | ⟨drem, dfes⟩
        · rcases hfr : func drem with _ | rf
          · simp only [repLoop, if_pos hv, hd, hfr] at h
            exact Option.noConfusion h
          rcases rf with ⟨v, frem, ffes⟩ | ⟨frem, ffes⟩
          · simp only [repLoop, if_pos hv, hd, hfr] at h
            split at h
            next hcond =>
              have hmax2 : ∀ m, maxB = some m →
                  (values ++ [v]).length < m := by
                intro m hm
                rw [hm] at hcond
                simpa using hcond
              obtain ⟨⟨tail, htail⟩, hmaxb, hlast, hdisj⟩ :=
                ih _ _ _ _ hmax2 h
              refine ⟨⟨[v] ++ tail, by simp [htail]⟩, hmaxb, hlast, ?_⟩
              rcases hdisj with ⟨hv2, hr2⟩ | hd2
              · refine Or.inr ⟨drem, v, ffes, ?_, ?_⟩
                · rw [hr2]
                  exact hfr
                · rw [hv2, List.getLast?_concat]
              · exact Or.inr hd2
            next hcond =>
              simp only [Option.some.injEq] at h
              cases h
              rcases hmb : maxB with _ | m
              · rw [hmb] at hcond
                exact absurd rfl hcond
              · rw [hmb] at hcond
                have hge : ¬ (values ++ [v]).length < m := by
                  simpa using hcond
                have hlt := hmax m hmb
                refine ⟨⟨[v], rfl⟩, ?_, ?_,
                  Or.inr ⟨drem, v, ffes, hfr, by simp⟩⟩
                · intro m2 hm2
                  injection hm2 with he
                  subst he
                  simp only [List.length_append, List.length_cons,
                    List.length_nil] at hge ⊢
                  omega
                · intro _
                  refine ⟨m, rfl, ?_⟩
                  simp only [List.length_append, List.length_cons,
                    List.length_nil] at hge ⊢
                  omega
          · simp only [repLoop, if_pos hv, hd, hfr, Option.some.injEq] at h
            cases h
            exact ⟨⟨[], by simp⟩, fun m hm => le_of_lt (hmax m hm),
              fun hls => absurd hls (by simp), Or.inl ⟨rfl, rfl⟩⟩
        · simp only [repLoop, if_pos hv, hd, Option.some.injEq] at h
          cases h
          exact ⟨⟨[], by simp⟩, fun m hm => le_of_lt (hmax m hm),
            fun hls => absurd hls (by simp), Or.inl ⟨rfl, rfl⟩⟩
      · rcases hfr : func remainder with _ | rf
        · simp only [repLoop, if_neg hv, hfr] at h
          exact Option.noConfusion h
        rcases rf with ⟨v, frem, ffes⟩ | ⟨frem, ffes⟩
        · simp only [repLoop, if_neg hv, hfr] at h
          split at h
          next hcond =>
            have hmax2 : ∀ m, maxB = some m →
                (values ++ [v]).length < m := by
              intro m hm
              rw [hm] at hcond
              simpa using hcond
            obtain ⟨⟨tail, htail⟩, hmaxb, hlast, hdisj⟩ :=
              ih _ _ _ _ hmax2 h
            refine ⟨⟨[v] ++ tail, by simp [htail]⟩, hmaxb, hlast, ?_⟩
            rcases hdisj with ⟨hv2, hr2⟩ | hd2
            · refine Or.inr ⟨remainder, v, ffes, ?_, ?_⟩
              · rw [hr2]
                exact hfr
              · rw [hv2, List.getLast?_concat]
            · exact Or.inr hd2
          next hcond =>
            simp only [Option.some.injEq] at h
            cases h
            rcases hmb : maxB with _ | m
            · rw [hmb] at hcond
              exact absurd rfl hcond
            · rw [hmb] at hcond
              have hge : ¬ (values ++ [v]).length < m := by
                simpa using hcond
              have hlt := hmax m hmb
              refine ⟨⟨[v], rfl⟩, ?_, ?_,
                Or.inr ⟨remainder, v, ffes, hfr, by simp⟩⟩
              · intro m2 hm2
                injection hm2 with he
                subst he
                simp only [List.length_append, List.length_cons,
                  List.length_nil] at hge ⊢
                omega
              · intro _
                refine ⟨m, rfl, ?_⟩
                simp only [List.length_append, List.length_cons,
                  List.length_nil] at hge ⊢
                omega
        · simp only [repLoop, if_neg hv, hfr, Option.some.injEq] at h
          cases h
          exact ⟨⟨[], by simp⟩, fun m hm => le_of_lt (hmax m hm),
            fun hls => absurd hls (by simp), Or.inl ⟨rfl, rfl⟩⟩

/-- Termination measure of the repetition loop: the room left under the
`max` bound when one is given, else one pending free first iteration. -/
def repMeasure (maxB : Option Nat) (nvalues : Nat) : Nat :=
  match maxB with
  | some m => m - nvalues
  | none => if nvalues = 0 then 1 else 0

theorem repLoop_total {α β : Type} (func : ProcO α)
    (delim : Option (ProcO β)) (maxB : Option Nat)
    (hfunc : ∀ s, func s ≠ none)
    (hnar : ∀ s v r f2, func s = some (.success v r f2) →
      r.length ≤ s.length)
    (hdtot : ∀ d, delim = some d → ∀ s, d s ≠ none)
    (hdnar : ∀ d, delim = some d → ∀ s v r f2,
      d s = some (.success v r f2) → r.length ≤ s.length)
    (hterm : maxB = none →
      (∀ s v r f2, func s = some (.success v r f2) → r.length < s.length) ∨
      (∃ d, delim = some d ∧ ∀ s v r f2,
        d s = some (.success v r f2) → r.length < s.length)) :
    ∀ (fuel : Nat) (values : List α) (fes : List FailedExpectation)
      (remainder : List Char),
      remainder.length + repMeasure maxB values.length < fuel →
      (∀ m, maxB = some m → values.length < m) →
      ∃ st, repLoop func delim maxB fuel values fes remainder = some st := by
  intro fuel
  induction fuel with
  | zero =>
    intro values fes remainder hlt hmax
    omega
  | succ fuel ih =>
    intro values fes remainder hlt hmax
    rcases hdo : delim with _ | d
    · rw [hdo] at ih hterm
      rcases hfr : func remainder with _ | rf
      · exact absurd hfr (hfunc remainder)
      rcases rf with ⟨v, frem, ffes⟩ | ⟨frem, ffes⟩
      · have hfn : frem.length ≤ remainder.length := hnar _ _ _ _ hfr
        rcases hmb : maxB with _ | m <;> subst hmb
        · have hlt2 : frem.length +
              repMeasure none (values ++ [v]).length < fuel := by
            simp only [repMeasure] at hlt ⊢
            rw [if_neg (by simp : ¬ ((values ++ [v]).length = 0))]
            by_cases hv0 : values.length = 0
            · rw [if_pos hv0] at hlt
              omega
            · rw [if_neg hv0] at hlt
              rcases hterm rfl with hp | ⟨d2, hd2, _⟩
              · have hs := hp _ _ _ _ hfr
                omega
              · exact Option.noConfusion hd2
          obtain ⟨st, hst⟩ := ih (values ++ [v]) (fes ++ ffes) frem hlt2
            (by simp)
          exact ⟨st, by simpa [repLoop, hfr] using hst⟩
        · by_cases hm : values.length + 1 < m
          · have hlt2 : frem.length +
                repMeasure (some m) (values ++ [v]).length < fuel := by
              have hvm := hmax m rfl
              simp only [repMeasure, List.length_append, List.length_cons,
                List.length_nil] at hlt ⊢
              omega
            obtain ⟨st, hst⟩ := ih (values ++ [v]) (fes ++ ffes) frem hlt2
              (by intro m2 hm2
                  injection hm2 with h2
                  subst h2
                  simpa using hm)
            exact ⟨st, by simpa [repLoop, hfr, hm] using hst⟩
          · exact ⟨⟨values ++ [v], fes ++ ffes, frem, true, frem⟩, by
              simp [repLoop, hfr, hm]⟩
      · exact ⟨⟨values, fes ++ ffes, remainder, false, frem⟩, by
          simp [repLoop, hfr]⟩
    · rw [hdo] at ih hterm
      by_cases hv : values.length > 0
      · rcases hd : d remainder with _ | rd
        · exact absurd hd (hdtot d hdo remainder)
        rcases rd with ⟨dv, drem, dfes⟩ | ⟨drem, dfes⟩
        · have hdn : drem.length ≤ remainder.length :=
            hdnar d hdo _ _ _ _ hd
          rcases hfr : func drem with _ | rf
          · exact absurd hfr (hfunc drem)
          rcases rf with ⟨v, frem, ffes⟩ | ⟨frem, ffes⟩
          · have hfn : frem.length ≤ drem.length := hnar _ _ _ _ hfr
            rcases hmb : maxB with _ | m <;> subst hmb
            · have hlt2 : frem.length +
                  repMeasure none (values ++ [v]).length < fuel := by
                simp only [repMeasure] at hlt ⊢
                rw [if_neg (by simp : ¬ ((values ++ [v]).length = 0))]
                rw [if_neg (by omega : ¬ (values.length = 0))] at hlt
                rcases hterm rfl with hp | ⟨d2, hd2, hdp⟩
                · have hs := hp _ _ _ _ hfr
                  omega
                · injection hd2 with he
                  subst he
                  have hs := hdp _ _ _ _ hd
                  omega
              obtain ⟨st, hst⟩ := ih (values ++ [v]) (fes ++ ffes) frem
                hlt2 (by simp)
              exact ⟨st, by simpa [repLoop, hv, hd, hfr] using hst⟩
            · by_cases hm : values.length + 1 < m
              · have hlt2 : frem.length +
                    repMeasure (some m) (values ++ [v]).length < fuel := by
                  have hvm := hmax m rfl
                  simp only [repMeasure, List.length_append,
                    List.length_cons, List.length_nil] at hlt ⊢
                  omega
                obtain ⟨st, hst⟩ := ih (values ++ [v]) (fes ++ ffes) frem
                  hlt2
                  (by intro m2 hm2
                      injection hm2 with h2
                      subst h2
                      simpa using hm)
                exact ⟨st, by simpa [repLoop, hv, hd, hfr, hm] using hst⟩
              · exact ⟨⟨values ++ [v], fes ++ ffes, frem, true, frem⟩, by
                  simp [repLoop, hv, hd, hfr, hm]⟩
          · exact ⟨⟨values, fes ++ ffes, remainder, false, frem⟩, by
              simp [repLoop, hv, hd, hfr]⟩
        · exact ⟨⟨values, fes, remainder, false, drem⟩, by
            simp [repLoop, hv, hd]⟩
      · have hv0 : values.length = 0 := by omega
        rcases hfr : func remainder with _ | rf
        · exact absurd hfr (hfunc remainder)
        rcases rf with ⟨v, frem, ffes⟩ | ⟨frem, ffes⟩
        · have hfn : frem.length ≤ remainder.length := hnar _ _ _ _ hfr
          rcases hmb : maxB with _ | m <;> subst hmb
          · have hlt2 : frem.length +
                repMeasure none (values ++ [v]).length < fuel := by
              simp only [repMeasure] at hlt ⊢
              rw [if_neg (by simp : ¬ ((values ++ [v]).length = 0))]
              rw [if_pos hv0] at hlt
              omega
            obtain ⟨st, hst⟩ := ih (values ++ [v]) (fes ++ ffes) frem hlt2
              (by simp)
            exact ⟨st, by simpa [repLoop, hv, hfr] using hst⟩
          · by_cases hm : values.length + 1 < m
            · have hlt2 : frem.length +
                  repMeasure (some m) (values ++ [v]).length < fuel := by
                have hvm := hmax m rfl
                simp only [repMeasure, List.length_append, List.length_cons,
                  List.length_nil] at hlt ⊢
                omega
              obtain ⟨st, hst⟩ := ih (values ++ [v]) (fes ++ ffes) frem
                hlt2
                (by intro m2 hm2
                    injection hm2 with h2
                    subst h2
                    simpa using hm)
              exact ⟨st, by simpa [repLoop, hv, hfr, hm] using hst⟩
            · exact ⟨⟨values ++ [v], fes ++ ffes, frem, true, frem⟩, by
                simp [repLoop, hv, hfr, hm]⟩
        · exact ⟨⟨values, fes ++ ffes, remainder, false, frem⟩, by
            simp [repLoop, hv, hfr]⟩

theorem repLoop_values_prefix {α β : Type} (func : ProcO α)
    (delim : Option (ProcO β)) (maxB : Option Nat) :
    ∀ (fuel : Nat) (values : List α) (fes : List FailedExpectation)
      (remainder : List Char) (st : RepState α),
      repLoop func delim maxB fuel values fes remainder = some st →
      ∃ tail, st.values = values ++ tail := by
  intro fuel
  induction fuel with
  | zero =>
    intro values fes remainder st h
    simp only [repLoop] at h
    exact Option.noConfusion h
  | succ fuel ih =>
    intro values fes remainder st h
    rcases hdo : delim with _ | d
    · rw [hdo] at ih h
      rcases hfr : func remainder with _ | rf
      · simp only [repLoop, hfr] at h
        exact Option.noConfusion h
      rcases rf with ⟨v, frem, ffes⟩ | ⟨frem, ffes⟩
      · simp only [repLoop, hfr] at h
        split at h
        · obtain ⟨tail, htail⟩ := ih _ _ _ _ h
          exact ⟨v :: tail, by simp [htail]⟩
        · simp only [Option.some.injEq] at h
          cases h
          exact ⟨[v], rfl⟩
      · simp only [repLoop, hfr, Option.some.injEq] at h
        cases h
        exact ⟨[], by simp⟩
    · rw [hdo] at ih h
      by_cases hv : values.length > 0
      · rcases hd : d remainder with _ | rd
        · simp only [repLoop, if_pos hv, hd] at h
          exact Option.noConfusion h
        rcases rd with ⟨dv, drem, dfes⟩ | ⟨drem, dfes⟩
        · rcases hfr : func drem with _ | rf
          · simp only [repLoop, if_pos hv, hd, hfr] at h
            exact Option.noConfusion h
          rcases rf with ⟨v, frem, ffes⟩ | ⟨frem, ffes⟩
          · simp only [repLoop, if_pos hv, hd, hfr] at h
            split at h
            · obtain ⟨tail, htail⟩ := ih _ _ _ _ h
              exact ⟨v :: tail, by simp [htail]⟩
            · simp only [Option.some.injEq] at h
              cases h
              exact ⟨[v], rfl⟩
          · simp only [repLoop, if_pos hv, hd, hfr, Option.some.injEq] at h
            cases h
            exact ⟨[], by simp⟩
        · simp only [repLoop, if_pos hv, hd, Option.some.injEq] at h
          cases h
          exact ⟨[], by simp⟩
      · rcases hfr : func remainder with _ | rf
        · simp only [repLoop, if_neg hv, hfr] at h
          exact Option.noConfusion h
        rcases rf with ⟨v, frem, ffes⟩ | ⟨frem, ffes⟩
        · simp only [repLoop, if_neg hv, hfr] at h
          split at h
          · obtain ⟨tail, htail⟩ := ih _ _ _ _ h
            exact ⟨v :: tail, by simp [htail]⟩
          · simp only [Option.some.injEq] at h
            cases h
            exact ⟨[v], rfl⟩
        · simp only [repLoop, if_neg hv, hfr, Option.some.injEq] at h
          cases h
          exact ⟨[], by simp⟩

theorem repLoop_first_element {α β : Type} (func : ProcO α)
    (delim : Option (ProcO β)) (maxB : Option Nat)
    (fuel : Nat) (fes : List FailedExpectation) (text : List Char)
    (st : RepState α)
    (h : repLoop func delim maxB (fuel + 1) [] fes text = some st)
    (hne : st.values ≠ []) :
    ∃ v r f2, func text = some (.success v r f2) ∧
      st.values.head? = some v := by
  rcases hdo : delim with _ | d
  · rw [hdo] at h
    rcases hfr : func text with _ | rf
    · simp only [repLoop, hfr] at h
      exact Option.noConfusion h
    rcases rf with ⟨v, frem, ffes⟩ | ⟨frem, ffes⟩
    · simp only [repLoop, hfr] at h
      refine ⟨v, frem, ffes, rfl, ?_⟩
      split at h
      · obtain ⟨tail, htail⟩ :=
          repLoop_values_prefix func none maxB _ _ _ _ _ h
        simp [htail]
      · simp only [Option.some.injEq] at h
        cases h
        rfl
    · simp only [repLoop, hfr, Option.some.injEq] at h
      cases h
      exact absurd rfl hne
  · rw [hdo] at h
    have hv : ¬ ([] : List α).length > 0 := by simp
    rcases hfr : func text with _ | rf
    · simp only [repLoop, if_neg hv, hfr] at h
      exact Option.noConfusion h
    rcases rf with ⟨v, frem, ffes⟩ | ⟨frem, ffes⟩
    · simp only [repLoop, if_neg hv, hfr] at h
      refine ⟨v, frem, ffes, rfl, ?_⟩
      split at h
      · obtain ⟨tail, htail⟩ :=
          repLoop_values_prefix func (some d) maxB _ _ _ _ _ h
        simp [htail]
      · simp only [Option.some.injEq] at h
        cases h
        rfl
    · simp only [repLoop, if_neg hv, hfr, Option.some.injEq] at h
      cases h
      exact absurd rfl hne

/-- C2: for every repetition lowering (zero-or-more, one-or-more, bounded
repeat with optional delimiter) whose element and delimiter procedures are
total and never lengthen the remainder, whose bounds are upstream-validated
(`min ≤ max` and `1 ≤ max` when a max is given), and which — when no max
bound forces termination — has an always-consuming element or an
always-consuming delimiter (the repetitions peggy's infinite-loop check
admits: a bounded repeat regardless of element consumption, an unbounded
repeat of a consuming element, or an unbounded delimited repeat whose
delimiter consumes): the loop terminates; the delimiter is attempted only
from the second iteration onward (the first element runs on the original
input); the committed remainder always ends at an element match, never at
a delimiter (no trailing delimiter is consumed); the result is a failure
exactly when fewer than `min` elements were matched (and then the last
attempt failed), and otherwise a success carrying the elements accumulated
up to the first failure or the max bound. -/
theorem C2_repetition_loop {α β : Type} (func : ProcO α)
    (delim : Option (ProcO β)) (minB : Nat) (maxB : Option Nat)
    (text : List Char)
    (hfunc : ∀ s, func s ≠ none)
    (hnar : ∀ s v r f2, func s = some (.success v r f2) →
      r.length ≤ s.length)
    (hdtot : ∀ d, delim = some d → ∀ s, d s ≠ none)
    (hdnar : ∀ d, delim = some d → ∀ s v r f2,
      d s = some (.success v r f2) → r.length ≤ s.length)
    (hterm : maxB = none →
      (∀ s v r f2, func s = some (.success v r f2) → r.length < s.length) ∨
      (∃ d, delim = some d ∧ ∀ s v r f2,
        d s = some (.success v r f2) → r.length < s.length))
    (hminmax : ∀ m, maxB = some m → minB ≤ m ∧ 1 ≤ m) :
    ∃ st, repLoop func delim maxB (text.length + maxB.getD 0 + 2) [] [] text
        = some st ∧
      repetitionRun func delim minB maxB text =
        some (if st.values.length < minB
          then PResult.failure st.lastRemainder st.failedExpectations
          else PResult.success st.values st.remainder
            st.failedExpectations) ∧
      (st.values.length < minB → st.lastSuccess = false) ∧
      (∀ m, maxB = some m → st.values.length ≤ m) ∧
      (st.values ≠ [] → ∃ v r f2, func text = some (.success v r f2) ∧
        st.values.head? = some v) ∧
      ((st.values = [] ∧ st.remainder = text) ∨
        ∃ s v f2, func s = some (.success v st.remainder f2) ∧
          st.values.getLast? = some v) := by
  have maxpre : ∀ m, maxB = some m → ([] : List α).length < m := by
    intro m hm
    have := (hminmax m hm).2
    simpa using this
  obtain ⟨st, hst⟩ :=
    repLoop_total func delim maxB hfunc hnar hdtot hdnar hterm
      (text.length + maxB.getD 0 + 2) [] [] text
      (by rcases maxB with _ | m
          · simp [repMeasure, Option.getD]
          · simp only [repMeasure, List.length_nil, Option.getD_some]
            omega)
      maxpre
  obtain ⟨⟨tail, htail⟩, hmaxb, hlast, hdisj⟩ :=
    repLoop_props func delim maxB _ [] [] text st maxpre hst
  have hshort : st.values.length < minB → st.lastSuccess = false := by
    intro hlt
    cases hls : st.lastSuccess
    · rfl
    · exfalso
      obtain ⟨m, hmb, hlen⟩ := hlast hls
      have := (hminmax m hmb).1
      omega
  refine ⟨st, hst, ?_, hshort, hmaxb, ?_, ?_⟩
  · simp only [repetitionRun, hst]
    by_cases h0 : minB = 0
    · subst h0
      simp
    · rw [if_pos h0]
      by_cases hlt : st.values.length < minB
      · rw [if_pos ⟨hlt, hshort hlt⟩, if_pos hlt]
      · rw [if_neg (fun hc => hlt hc.1), if_neg hlt]
  · intro hne
    exact repLoop_first_element func delim maxB
      (text.length + maxB.getD 0 + 1) [] text st hst hne
  · rcases hdisj with ⟨hv, hr⟩ | hd
    · exact Or.inl ⟨by simpa using hv, hr⟩
    · exact Or.inr hd

theorem litP_success {value s : List Char} {v : Val} {r : List Char}
    {f2 : List FailedExpectation}
    (h : litP value s = some (.success v r f2)) :
    value.isPrefixOf s = true ∧ r = s.drop value.length := by
  simp only [litP, literalRun, Option.some.injEq] at h
  split at h
  next hpre =>
    cases h
    exact ⟨hpre, rfl⟩
  next => exact PResult.noConfusion h

theorem litP_narrow (value : List Char) :
    ∀ (s : List Char) (v : Val) (r : List Char)
      (f2 : List FailedExpectation),
      litP value s = some (.success v r f2) → r.length ≤ s.length := by
  intro s v r f2 h
  obtain ⟨-, hr⟩ := litP_success h
  subst hr
  simp

theorem litP_progress (c : Char) :
    ∀ (s : List Char) (v : Val) (r : List Char)
      (f2 : List FailedExpectation),
      litP [c] s = some (.success v r f2) → r.length < s.length := by
  intro s v r f2 h
  obtain ⟨hpre, hr⟩ := litP_success h
  subst hr
  cases s with
  | nil => simp [List.isPrefixOf] at hpre
  | cons a as => simp

theorem optionalRun_total (f : ProcO Val) (hf : ∀ s, f s ≠ none) :
    ∀ s, optionalRun f s ≠ none := by
  intro s
  cases hfs : f s with
  | none => exact absurd hfs (hf s)
  | some r =>
    cases r with
    | success v rem fes => simp [optionalRun, hfs]
    | failure rem fes => simp [optionalRun, hfs]

theorem optionalRun_narrow (f : ProcO Val)
    (hf : ∀ s v r f2, f s = some (.success v r f2) → r.length ≤ s.length) :
    ∀ s v r f2, optionalRun f s = some (.success v r f2) →
      r.length ≤ s.length := by
  intro s v r f2 h
  cases hfs : f s with
  | none =>
    simp only [optionalRun, hfs] at h
    exact Option.noConfusion h
  | some r2 =>
    cases r2 with
    | success v2 rem2 fes2 =>
      simp only [optionalRun, hfs, Option.some.injEq,
        PResult.success.injEq] at h
      obtain ⟨-, hr, -⟩ := h
      rw [← hr]
      exact hf s v2 rem2 fes2 hfs
    | failure rem2 fes2 =>
      simp only [optionalRun, hfs, Option.some.injEq,
        PResult.success.injEq] at h
      obtain ⟨-, hr, -⟩ := h
      rw [← hr]

/-- The procedure of the optional element `"a"?`. -/
def optLitA : ProcO Val :=
  fun s => optionalRun (litP ['a']) s

/-- Witness for C2 at a bounded repeat of a possibly-zero-length element —
`("a"?)|2|`, which peggy's infinite-repetition check admits: on input `"b"`
the optional element succeeds twice at zero length, the loop exits at the
max bound and the wrapper returns a success with two elements. -/
theorem C2_witness :
    (∃ st, repLoop optLitA (none : Option (ProcO Val)) (some 2)
        (List.length ['b'] + (some 2 : Option Nat).getD 0 + 2) [] []
        ['b'] = some st ∧
      repetitionRun optLitA (none : Option (ProcO Val)) 2 (some 2) ['b'] =
        some (if st.values.length < 2
          then PResult.failure st.lastRemainder st.failedExpectations
          else PResult.success st.values st.remainder
            st.failedExpectations) ∧
      (st.values.length < 2 → st.lastSuccess = false) ∧
      (∀ m, (some 2 : Option Nat) = some m → st.values.length ≤ m) ∧
      (st.values ≠ [] → ∃ v r f2,
        optLitA ['b'] = some (.success v r f2) ∧
          st.values.head? = some v) ∧
      ((st.values = [] ∧ st.remainder = ['b']) ∨
        ∃ s v f2, optLitA s = some (.success v st.remainder f2) ∧
          st.values.getLast? = some v)) :=
  C2_repetition_loop optLitA (none : Option (ProcO Val)) 2 (some 2) ['b']
    (optionalRun_total (litP ['a']) (fun s => by simp [litP]))
    (optionalRun_narrow (litP ['a']) (litP_narrow ['a']))
    (fun d hd => Option.noConfusion hd)
    (fun d hd => Option.noConfusion hd)
    (fun h => Option.noConfusion h)
    (fun m hm => by
      injection hm with he
      subst he
      exact ⟨le_refl 2, by omega⟩)

/-- Patterns the engine synthesizes (`RegExpLiteral.toRegExpString`):
escaped literal text, character classes, the any-character dot,
concatenation (sequence), alternation (choice, and the `?` quantifier via
the empty pattern), negative lookahead (`simple_not`), and the repetition
quantifier `{lo,hi}` (an absent `hi` renders as `{lo,}`). -/
inductive RE : Type where
  | epsR
  | litR (s : List Char)
  | clsR (p : Char → Bool)
  | dotR
  | catR (a b : RE)
  | altR (a b : RE)
  | lookNegR (a : RE)
  | repR (a : RE) (lo : Nat) (hi : Option Nat)

/-- Line terminators, which the synthesized `.` (emitted without the `s`
flag) does not match: `\n`, `\r`, U+2028 and U+2029. -/
def isLineTerm (c : Char) : Bool :=
  c = '\n' || c = '\r' || c.val = 0x2028 || c.val = 0x2029

/-- Backtracking matcher for anchored patterns with JS-regex semantics,
parameterized by the interpretation `repM` of one repetition quantifier:
the candidate remainders in priority order (leftmost alternative first,
greedy concatenation, zero-width lookahead). -/
def reMatchesGo
    (repM : RE → Nat → Option Nat → List Char → List (List Char)) :
    RE → List Char → List (List Char)
  | .epsR, text => [text]
  | .litR s, text =>
    if s.isPrefixOf text then [text.drop s.length] else []
  | .clsR p, text =>
    match text with
    | c :: rest => if p c then [rest] else []
    | [] => []
  | .dotR, text =>
    match text with
    | c :: rest => if isLineTerm c then [] else [rest]
    | [] => []
  | .catR a b, text =>
    (reMatchesGo repM a text).flatMap (fun rem => reMatchesGo repM b rem)
  | .altR a b, text => reMatchesGo repM a text ++ reMatchesGo repM b text
  | .lookNegR a, text =>
    if reMatchesGo repM a text = [] then [text] else []
  | .repR a lo hi, text => repM a lo hi text

/-- The matcher with the greedy ES repeat-matcher interpretation of
quantifiers, candidates beyond `fuel` unrollings dropped: an exhausted
bounded quantifier matches emptily; otherwise a further iteration of the
body is preferred over stopping (allowed only once the minimum is met), and
the ES rule discards an optional iteration that matched the empty string. -/
def reMatchesF : Nat → RE → List Char → List (List Char)
  | 0 => reMatchesGo (fun _ _ _ _ => [])
  | fuel + 1 =>
    reMatchesGo (fun a lo hi text =>
      match hi with
      | some 0 => [text]
      | _ =>
        ((reMatchesF fuel a text).flatMap (fun rem =>
            if lo = 0 ∧ rem.length = text.length then []
            else
              reMatchesF fuel (.repR a (lo - 1) (hi.map (fun m => m - 1)))
                rem))
          ++ (if lo = 0 then [text] else []))

/-- Pending-minimum bound used to size the matcher's fuel. -/
def reMins : RE → Nat
  | .epsR => 1
  | .litR _ => 1
  | .clsR _ => 1
  | .dotR => 1
  | .catR a b => reMins a + reMins b + 1
  | .altR a b => reMins a + reMins b + 1
  | .lookNegR a => reMins a + 1
  | .repR a lo _ => (reMins a + 1) * (lo + 1) + 1

/-- Fuel ample for the quantifier unrollings on the given input: every
unrolling either consumes a character or discharges a pending minimum. -/
def reFuel (re : RE) (text : List Char) : Nat :=
  (reMins re + 1) * (text.length + 2)

/-- The candidate remainders of the synthesized anchored pattern. -/
def reMatches (re : RE) (text : List Char) : List (List Char) :=
  reMatchesF (reFuel re text) re text

/-- The anchored match the generated code observes: the first candidate. -/
def reMatch (re : RE) (text : List Char) : Option (List Char) :=
  (reMatches re text).head?

/-- `Capture.toReturnCode` (text capture via a synthesized pattern): one
match yields a success carrying the matched prefix and the remainder sliced
past it; no match yields a failure with the subtree's expectations recorded
at the input. -/
def captureRun (re : RE) (exps : List Expectation) (text : List Char) :
    PResult Val :=
  match reMatch re text with
  | some rem =>
    .success (.str (text.take (text.length - rem.length))) rem []
  | none => .failure text (exps.map (fun e => ⟨e, text⟩))

/-- Characters both backslash-prefixed by `escapeLiteral`'s first rewrite
(`[.*+?^${}()|[\]\\\//\0\x08\t\n\v\f\r]` → `\$&`, which keeps the raw
character after the added backslash) and then hit by its `[\x00-\x0F]` hex
rewrite: NUL, backspace, tab, `\n`, `\v`, `\f` and `\r` end double-escaped. -/
def isBadLit (c : Char) : Bool :=
  c.val = 0x00 || c.val = 0x08 || c.val = 0x09 || c.val = 0x0A ||
    c.val = 0x0B || c.val = 0x0C || c.val = 0x0D

/-- Upper-case hex digit, as the engine's `hex` helper renders it
(`charCodeAt(0).toString(16).toUpperCase()`). -/
def hexDigit (n : Nat) : Char :=
  if n < 10 then Char.ofNat (48 + n) else Char.ofNat (55 + n)

/-- Effect of `RegExpLiteral.escapeLiteral` on one literal character, read
back as the text the resulting pattern fragment matches: a double-escaped
control character's fragment (`\` + `\x0H` with the raw character replaced)
matches a literal backslash followed by `x0` and a hex digit — not the
character itself — while every other character's escape is correct and
matches exactly that character. -/
def escLitChar (c : Char) : List Char :=
  if isBadLit c then ['\\', 'x', '0', hexDigit (c.toNat % 16)]
  else [c]

/-- The text matched by the synthesized pattern of a literal. -/
def escLit (s : List Char) : List Char := s.flatMap escLitChar

theorem escLit_clean :
    ∀ (s : List Char), (∀ c ∈ s, isBadLit c = false) → escLit s = s := by
  intro s
  induction s with
  | nil => intro _; rfl
  | cons c rest ih =>
    intro h
    have hc := h c (by simp)
    have ih2 := ih (fun x hx => h x (by simp [hx]))
    show escLitChar c ++ escLit rest = c :: rest
    rw [ih2, show escLitChar c = [c] from by simp [escLitChar, hc]]
    rfl

mutual

/-- Model of `RegExpLiteral.toRegExpString` on the embedded grammar
fragment, together with the construction failures that make the engine fall
back to the combinator path: literal → the text its escaped pattern
matches, class → character set (`escapeClassCharacter` escapes every
character correctly), any → dot, sequence → concatenation, choice →
parenthesized alternation (empty → the empty group), optional → greedy
alternation with the empty pattern, text wrapper → transparent, negation →
negative lookahead, repetition → the `{lo,hi}` quantifier — with the
`(E(DE){lo-1,hi-1})` expansion (optional when `lo = 0`) for a delimited
repeat, refused when the max count is below two, and the source's quirk
that an explicit max of zero renders as an unbounded `{0,}`.  The embedded
fragment has no rule references or action nodes, so the recursion and
action failures cannot fire here. -/
def toRE : GExpr → Except String RE
  | .lit s => .ok (.litR (escLit s))
  | .charCls p _ => .ok (.clsR p)
  | .anyChar => .ok .dotR
  | .seq es _ =>
    match toREList es with
    | .ok rs => .ok (rs.foldr RE.catR .epsR)
    | .error e => .error e
  | .choice es =>
    match toREList es with
    | .ok [] => .ok .epsR
    | .ok (r :: rest) => .ok (rest.foldl RE.altR r)
    | .error e => .error e
  | .rep e minB maxB dOpt =>
    match dOpt with
    | some d =>
      if (match maxB with
          | some m => decide (m < 2)
          | none => false) = true then
        .error "delimiter cannot exist if max count is less than two"
      else
        match toRE e, toRE d with
        | .ok re, .ok rd =>
          if minB = 0 then
            .ok (RE.altR
              (RE.catR re (RE.repR (RE.catR rd re) (minB - 1)
                (maxB.map (fun m => m - 1)))) .epsR)
          else
            .ok (RE.catR re (RE.repR (RE.catR rd re) (minB - 1)
              (maxB.map (fun m => m - 1))))
        | .error e2, _ => .error e2
        | _, .error e2 => .error e2
    | none =>
      match toRE e with
      | .ok re =>
        .ok (.repR re minB
          (match maxB with
           | some m => if 0 < m then some m else none
           | none => none))
      | .error e2 => .error e2
  | .txt e => toRE e
  | .neg e =>
    match toRE e with
    | .ok r => .ok (.lookNegR r)
    | .error e2 => .error e2
  | .opt e =>
    match toRE e with
    | .ok r => .ok (.altR r .epsR)
    | .error e2 => .error e2

/-- Patterns of a list of sub-expressions. -/
def toREList : List GExpr → Except String (List RE)
  | [] => .ok []
  | e :: rest =>
    match toRE e, toREList rest with
    | .ok r, .ok rs => .ok (r :: rs)
    | .error e2, _ => .error e2
    | _, .error e2 => .error e2

end

/-- Atomic constructs whose synthesized patterns cannot backtrack. -/
inductive Atom : Type where
  | litA (s : List Char)
  | clsA (p : Char → Bool) (desc : String)
  | anyA

/-- The grammar node of an atom. -/
def Atom.toGExpr : Atom → GExpr
  | .litA s => .lit s
  | .clsA p d => .charCls p d
  | .anyA => .anyChar

/-- The synthesized pattern of an atom. -/
def Atom.toAtomRE : Atom → RE
  | .litA s => .litR (escLit s)
  | .clsA p _ => .clsR p
  | .anyA => .dotR

/-- Atoms whose synthesized pattern is faithful to the combinator lowering:
character classes always (`escapeClassCharacter` replaces every rewritten
character by a correct escape before the hex catch-alls run), literals
exactly when no character is double-escaped by `escapeLiteral`, and never
the any-character construct (the synthesized `.` rejects the line
terminators the combinator lowering accepts). -/
def Atom.safe : Atom → Bool
  | .litA s => s.all (fun c => !isBadLit c)
  | .clsA _ _ => true
  | .anyA => false

theorem toRE_atom (a : Atom) : toRE a.toGExpr = .ok a.toAtomRE := by
  cases a <;> rfl

theorem toREList_atoms (atoms : List Atom) :
    toREList (atoms.map Atom.toGExpr) = .ok (atoms.map Atom.toAtomRE) := by
  induction atoms with
  | nil => rfl
  | cons a rest ih =>
    simp only [List.map_cons, toREList, toRE_atom a, ih]

theorem toRE_atomSeq (atoms : List Atom) :
    toRE (GExpr.seq (atoms.map Atom.toGExpr) none) =
      .ok ((atoms.map Atom.toAtomRE).foldr RE.catR .epsR) := by
  simp only [toRE, toREList_atoms]

theorem atom_step (a : Atom) (hsafe : a.safe = true)
    (repM : RE → Nat → Option Nat → List Char → List (List Char))
    (text : List Char) :
    (∃ v r, interp a.toGExpr text = some (.success v r []) ∧
      reMatchesGo repM a.toAtomRE text = [r]) ∨
    (∃ r f2, interp a.toGExpr text = some (.failure r f2) ∧
      reMatchesGo repM a.toAtomRE text = []) := by
  cases a with
  | litA s =>
    have hesc : escLit s = s := by
      refine escLit_clean s ?_
      have h2 : ∀ x ∈ s, isBadLit x = false := by
        simpa [Atom.safe] using hsafe
      exact h2
    by_cases h : s.isPrefixOf text
    · exact Or.inl ⟨.str s, text.drop s.length,
        by simp [Atom.toGExpr, interp, literalRun, h],
        by simp [Atom.toAtomRE, reMatchesGo, hesc, h]⟩
    · exact Or.inr ⟨text, [⟨⟨.literal, String.mk s⟩, text⟩],
        by simp [Atom.toGExpr, interp, literalRun, h],
        by simp [Atom.toAtomRE, reMatchesGo, hesc, h]⟩
  | clsA p d =>
    cases text with
    | nil =>
      exact Or.inr ⟨[], [⟨⟨.cls, d⟩, []⟩],
        by simp [Atom.toGExpr, interp, classRun],
        by simp [Atom.toAtomRE, reMatchesGo]⟩
    | cons c rest =>
      by_cases h : p c
      · exact Or.inl ⟨.str [c], rest,
          by simp [Atom.toGExpr, interp, classRun, h],
          by simp [Atom.toAtomRE, reMatchesGo, h]⟩
      · exact Or.inr ⟨c :: rest, [⟨⟨.cls, d⟩, c :: rest⟩],
          by simp [Atom.toGExpr, interp, classRun, h],
          by simp [Atom.toAtomRE, reMatchesGo, h]⟩
  | anyA => exact absurd hsafe (by simp [Atom.safe])

theorem atomSeq_run
    (repM : RE → Nat → Option Nat → List Char → List (List Char)) :
    ∀ (atoms : List Atom), (∀ a ∈ atoms, a.safe = true) →
    ∀ (text : List Char) (fes : List FailedExpectation) (vals : List Val),
      (∃ vs r, seqGo (interpList (atoms.map Atom.toGExpr)) fes vals text =
          some (.success vs r fes) ∧
        reMatchesGo repM ((atoms.map Atom.toAtomRE).foldr RE.catR .epsR)
          text = [r]) ∨
      (∃ r f2, seqGo (interpList (atoms.map Atom.toGExpr)) fes vals text =
          some (.failure r f2) ∧
        reMatchesGo repM ((atoms.map Atom.toAtomRE).foldr RE.catR .epsR)
          text = []) := by
  intro atoms
  induction atoms with
  | nil =>
    intro _ text fes vals
    exact Or.inl ⟨vals, text, by simp [interpList, seqGo],
      by simp [reMatchesGo]⟩
  | cons a rest ih =>
    intro hsafe text fes vals
    rcases atom_step a (hsafe a (by simp)) repM text with
      ⟨v, r, ha, hre⟩ | ⟨r, f2, ha, hre⟩
    · rcases ih (fun x hx => hsafe x (by simp [hx])) r (fes ++ [])
          (vals ++ [v]) with
        ⟨vs, r2, hseq, hre2⟩ | ⟨r2, f3, hseq, hre2⟩
      · refine Or.inl ⟨vs, r2, ?_, ?_⟩
        · simp only [List.map_cons, interpList, seqGo, ha]
          simpa using hseq
        · simp only [List.map_cons, List.foldr_cons, reMatchesGo, hre,
            List.flatMap_cons, List.flatMap_nil, List.append_nil, hre2]
      · refine Or.inr ⟨r2, f3, ?_, ?_⟩
        · simp only [List.map_cons, interpList, seqGo, ha]
          simpa using hseq
        · simp only [List.map_cons, List.foldr_cons, reMatchesGo, hre,
            List.flatMap_cons, List.flatMap_nil, List.append_nil, hre2]
    · refine Or.inr ⟨r, fes ++ f2, ?_, ?_⟩
      · simp only [List.map_cons, interpList, seqGo, ha]
      · simp only [List.map_cons, List.foldr_cons, reMatchesGo, hre,
          List.flatMap_nil]

/-- Counterexample for C3: for the synthesizable, action-free subtree
`("a" / "ab") "c"` under a text capture, on input `"abc"` the synthesized
pattern backtracks into the second alternative and matches the whole input,
while the general combinator lowering commits to the first alternative and
fails — the two paths do not produce the same match outcome. -/
theorem C3_counterexample :
    toRE (GExpr.seq
        [GExpr.choice [GExpr.lit ['a'], GExpr.lit ['a', 'b']],
         GExpr.lit ['c']] none) =
      Except.ok (RE.catR (RE.altR (RE.litR ['a']) (RE.litR ['a', 'b']))
        (RE.catR (RE.litR ['c']) RE.epsR)) ∧
    captureRun (RE.catR (RE.altR (RE.litR ['a']) (RE.litR ['a', 'b']))
        (RE.catR (RE.litR ['c']) RE.epsR)) [] ['a', 'b', 'c'] =
      .success (Val.str ['a', 'b', 'c']) [] [] ∧
    interp (GExpr.txt (GExpr.seq
        [GExpr.choice [GExpr.lit ['a'], GExpr.lit ['a', 'b']],
         GExpr.lit ['c']] none)) ['a', 'b', 'c'] =
      some (.failure ['b', 'c'] [⟨⟨.literal, "c"⟩, ['b', 'c']⟩]) :=
  ⟨rfl, rfl, rfl⟩

/-- C3 (amended): for subtrees that are sequences of backtracking-free,
faithfully escaped atoms — character classes, and literals free of the
control characters `escapeLiteral` double-escapes — the synthesized
match-and-slice procedure and the combinator lowering of the same subtree
under a text capture agree: same match/no-match outcome and, on a match,
identical results (same captured text and same remainder).  Outside this
fragment the two paths can disagree: the synthesized pattern backtracks
into later alternatives of a choice (the counterexample), the synthesized
`.` rejects the line terminators the combinator any-character accepts, and
a double-escaped control character makes a synthesized literal pattern
match the escape text instead of the literal; a subtree whose pattern
construction fails falls back to the combinator path. -/
theorem C3_atom_sequence_equiv (atoms : List Atom)
    (hsafe : ∀ a ∈ atoms, a.safe = true)
    (exps : List Expectation) (text : List Char) :
    toRE (GExpr.seq (atoms.map Atom.toGExpr) none) =
      .ok ((atoms.map Atom.toAtomRE).foldr RE.catR .epsR) ∧
    ∃ res,
      interp (GExpr.txt (GExpr.seq (atoms.map Atom.toGExpr) none)) text =
        some res ∧
      (captureRun ((atoms.map Atom.toAtomRE).foldr RE.catR .epsR) exps
          text).isSuccessB = res.isSuccessB ∧
      (res.isSuccessB = true →
        captureRun ((atoms.map Atom.toAtomRE).foldr RE.catR .epsR) exps
          text = res) := by
  refine ⟨toRE_atomSeq atoms, ?_⟩
  have hgo : ∃ repM,
      reMatches ((atoms.map Atom.toAtomRE).foldr RE.catR .epsR) text =
        reMatchesGo repM ((atoms.map Atom.toAtomRE).foldr RE.catR .epsR)
          text := by
    unfold reMatches
    cases reFuel ((atoms.map Atom.toAtomRE).foldr RE.catR .epsR) text with
    | zero => exact ⟨_, rfl⟩
    | succ n => exact ⟨_, rfl⟩
  obtain ⟨repM, hrm⟩ := hgo
  rcases atomSeq_run repM atoms hsafe text [] [] with
    ⟨vs, r, hseq, hre⟩ | ⟨r, f2, hseq, hre⟩
  · refine ⟨.success (.str (text.take (text.length - r.length))) r [],
      ?_, ?_, ?_⟩
    · simp only [interp, extractRun, reductionRun, hseq]
    · simp [captureRun, reMatch, hrm, hre, PResult.isSuccessB]
    · intro _
      simp [captureRun, reMatch, hrm, hre]
  · refine ⟨.failure r f2, ?_, ?_, ?_⟩
    · simp only [interp, extractRun, reductionRun, hseq]
    · simp [captureRun, reMatch, hrm, hre, PResult.isSuccessB]
    · intro hc
      exact absurd hc (by simp [PResult.isSuccessB])

/-- Witness for the amended C3 at a concrete safe atom sequence. -/
theorem C3_witness :
    (∀ a ∈ [Atom.litA ['a'], Atom.clsA (fun c => decide (c = 'b')) "[b]"],
      a.safe = true) ∧
    (toRE (GExpr.seq
        ([Atom.litA ['a'],
          Atom.clsA (fun c => decide (c = 'b')) "[b]"].map Atom.toGExpr)
        none) =
      .ok (([Atom.litA ['a'],
          Atom.clsA (fun c => decide (c = 'b')) "[b]"].map
        Atom.toAtomRE).foldr RE.catR .epsR) ∧
    ∃ res,
      interp (GExpr.txt (GExpr.seq
          ([Atom.litA ['a'],
            Atom.clsA (fun c => decide (c = 'b')) "[b]"].map Atom.toGExpr)
          none)) ['a', 'b', 'c'] = some res ∧
      (captureRun (([Atom.litA ['a'],
            Atom.clsA (fun c => decide (c = 'b')) "[b]"].map
          Atom.toAtomRE).foldr RE.catR .epsR) [] ['a', 'b', 'c']
        ).isSuccessB = res.isSuccessB ∧
      (res.isSuccessB = true →
        captureRun (([Atom.litA ['a'],
            Atom.clsA (fun c => decide (c = 'b')) "[b]"].map
          Atom.toAtomRE).foldr RE.catR .epsR) [] ['a', 'b', 'c'] = res)) :=
  ⟨by decide,
    C3_atom_sequence_equiv
      [Atom.litA ['a'], Atom.clsA (fun c => decide (c = 'b')) "[b]"]
      (by decide) [] ['a', 'b', 'c']⟩

theorem reMatchesGo_suffix
    (repM : RE → Nat → Option Nat → List Char → List (List Char))
    (hrep : ∀ a lo hi text rem, rem ∈ repM a lo hi text → rem <:+ text) :
    ∀ (re : RE) (text rem : List Char),
      rem ∈ reMatchesGo repM re text → rem <:+ text := by
  intro re
  induction re with
  | epsR =>
    intro text rem h
    simp only [reMatchesGo, List.mem_singleton] at h
    subst h
    exact List.suffix_rfl
  | litR s =>
    intro text rem h
    simp only [reMatchesGo] at h
    split at h
    · simp only [List.mem_singleton] at h
      subst h
      exact List.drop_suffix _ _
    · exact absurd h (List.not_mem_nil rem)
  | clsR p =>
    intro text rem h
    cases text with
    | nil => exact absurd h (List.not_mem_nil rem)
    | cons c rest =>
      simp only [reMatchesGo] at h
      split at h
      · simp only [List.mem_singleton] at h
        subst h
        exact List.suffix_cons _ _
      · exact absurd h (List.not_mem_nil rem)
  | dotR =>
    intro text rem h
    cases text with
    | nil => exact absurd h (List.not_mem_nil rem)
    | cons c rest =>
      simp only [reMatchesGo] at h
      split at h
      · exact absurd h (List.not_mem_nil rem)
      · simp only [List.mem_singleton] at h
        subst h
        exact List.suffix_cons _ _
  | catR a b iha ihb =>
    intro text rem h
    simp only [reMatchesGo, List.mem_flatMap] at h
    obtain ⟨mid, hmid, hrem⟩ := h
    exact (ihb mid rem hrem).trans (iha text mid hmid)
  | altR a b iha ihb =>
    intro text rem h
    simp only [reMatchesGo, List.mem_append] at h
    rcases h with h | h
    · exact iha text rem h
    · exact ihb text rem h
  | lookNegR a iha =>
    intro text rem h
    simp only [reMatchesGo] at h
    split at h
    · simp only [List.mem_singleton] at h
      subst h
      exact List.suffix_rfl
    · exact absurd h (List.not_mem_nil rem)
  | repR a lo hi iha =>
    intro text rem h
    exact hrep a lo hi text rem h

theorem reMatchesF_suffix :
    ∀ (fuel : Nat) (re : RE) (text rem : List Char),
      rem ∈ reMatchesF fuel re text → rem <:+ text := by
  intro fuel
  induction fuel with
  | zero =>
    intro re text rem h
    refine reMatchesGo_suffix _ ?_ re text rem h
    intro a lo hi t r2 h2
    exact absurd h2 (List.not_mem_nil r2)
  | succ f ih =>
    intro re text rem h
    refine reMatchesGo_suffix _ ?_ re text rem h
    intro a lo hi t r2 h2
    rcases hi with _ | m
    · rcases List.mem_append.mp h2 with h3 | h3
      · rcases List.mem_flatMap.mp h3 with ⟨mid, hmid, hr⟩
        by_cases hc : lo = 0 ∧ mid.length = t.length
        · rw [if_pos hc] at hr
          exact absurd hr (List.not_mem_nil r2)
        · rw [if_neg hc] at hr
          exact (ih _ mid r2 hr).trans (ih a t mid hmid)
      · by_cases htop : lo = 0
        · rw [if_pos htop] at h3
          rw [List.mem_singleton.mp h3]
        · rw [if_neg htop] at h3
          exact absurd h3 (List.not_mem_nil r2)
    · cases m with
      | zero =>
        rw [List.mem_singleton.mp h2]
      | succ m2 =>
        rcases List.mem_append.mp h2 with h3 | h3
        · rcases List.mem_flatMap.mp h3 with ⟨mid, hmid, hr⟩
          by_cases hc : lo = 0 ∧ mid.length = t.length
          · rw [if_pos hc] at hr
            exact absurd hr (List.not_mem_nil r2)
          · rw [if_neg hc] at hr
            exact (ih _ mid r2 hr).trans (ih a t mid hmid)
        · by_cases htop : lo = 0
          · rw [if_pos htop] at h3
            rw [List.mem_singleton.mp h3]
          · rw [if_neg htop] at h3
            exact absurd h3 (List.not_mem_nil r2)

theorem reMatch_suffix {re : RE} {text rem : List Char}
    (h : reMatch re text = some rem) : rem <:+ text := by
  unfold reMatch at h
  have hm : rem ∈ reMatches re text := by
    cases hc : reMatches re text with
    | nil =>
      rw [hc] at h
      exact Option.noConfusion h
    | cons x xs =>
      rw [hc] at h
      simp only [List.head?_cons, Option.some.injEq] at h
      subst h
      simp
  exact reMatchesF_suffix _ re text rem hm

/-- An element slot of `Reduction.toReturnCode`: a `Function` call, or the
synthesized `RegExpLiteral` shortcut (`remainder.match(...)`) used for a
non-picked element of a picked sequence (the `insideAction` variant of the
shortcut condition concerns action nodes, outside the embedded fragment). -/
inductive RElem : Type where
  | funcE (f : ProcO Val)
  | regexE (re : RE) (exps : List Expectation)

/-- The element chain of `Reduction.toReturnCode` over both slot kinds: a
`Function` slot runs on the threaded remainder and pushes the failed
expectations its result carries; a `RegExpLiteral` slot pushes its static
expectations at the current remainder unconditionally, fails without
consuming when the anchored match misses, and otherwise advances the
remainder past the match, contributing no slot value (`result${i}.value`
exists only for `Function` slots). -/
def redGo : List RElem → List FailedExpectation → List (Option Val) →
    List Char → Option (PResult (List (Option Val)))
  | [], fes, vals, remainder => some (.success vals remainder fes)
  | .funcE f :: rest, fes, vals, remainder =>
    match f remainder with
    | none => none
    | some (.failure rrem rfes) => some (.failure rrem (fes ++ rfes))
    | some (.success v rrem rfes) =>
      redGo rest (fes ++ rfes) (vals ++ [some v]) rrem
  | .regexE re exps :: rest, fes, vals, remainder =>
    match reMatch re remainder with
    | none =>
      some (.failure remainder
        (fes ++ exps.map (fun ex => ⟨ex, remainder⟩)))
    | some rem2 =>
      redGo rest (fes ++ exps.map (fun ex => ⟨ex, remainder⟩))
        (vals ++ [none]) rem2

/-- Packaging of `Reduction.toReturnCode` over the engine's element slots:
the success value is the picked slot's result value, or the tuple of every
`Function` slot's value. -/
def reductionRunE (elems : List RElem) (pick : Option Nat)
    (text : List Char) : Option (PResult Val) :=
  match redGo elems [] [] text with
  | none => none
  | some (.failure rem fes) => some (.failure rem fes)
  | some (.success vs rem fes) =>
    match pick with
    | some i => some (.success (((vs.get? i).bind id).getD .und) rem fes)
    | none => some (.success (.list (vs.filterMap id)) rem fes)

mutual

/-- Denotation of the generated procedure for each construct as the engine
actually lowers it: text capture prefers the synthesized `Capture` path and
falls back to `Extract` only when the pattern construction fails, and a
sequence replaces each non-picked element of a picked sequence whose
pattern synthesizes with the `RegExpLiteral` match-and-slice shortcut. -/
def interpE : GExpr → List Char → Option (PResult Val)
  | .lit v, text => some (literalRun v text)
  | .charCls p desc, text => some (classRun p desc text)
  | .anyChar, text => some (anyRun text)
  | .seq es pick, text => reductionRunE (interpEElems es pick 0) pick text
  | .choice es, text => firstRun (interpEProcs es) text
  | .rep e minB maxB dOpt, text =>
    match
      repetitionRun (interpE e)
        (match dOpt with
         | some d => some (interpE d)
         | none => (none : Option (ProcO Val))) minB maxB text with
    | none => none
    | some (.success vs rem fes) => some (.success (.list vs) rem fes)
    | some (.failure rem fes) => some (.failure rem fes)
  | .txt e, text =>
    match toRE e with
    | .ok re => some (captureRun re (expects e) text)
    | .error _ => extractRun (interpE e) text
  | .neg e, text => invertRun (interpE e) text
  | .opt e, text => optionalRun (interpE e) text

/-- The engine's element slots of a sequence, from slot index `i`: the
`RegExpLiteral` shortcut applies to a slot that is not the picked one when
its pattern synthesizes; the picked slot and every slot of an unpicked
sequence stay `Function` calls. -/
def interpEElems : List GExpr → Option Nat → Nat → List RElem
  | [], _, _ => []
  | e :: rest, pick, i =>
    (if (match pick with
         | some i0 => decide (i ≠ i0)
         | none => false) = true then
      match toRE e with
      | .ok re => RElem.regexE re (expects e)
      | .error _ => RElem.funcE (interpE e)
    else RElem.funcE (interpE e)) :: interpEElems rest pick (i + 1)

/-- The procedures of the alternatives of a choice. -/
def interpEProcs : List GExpr → List (ProcO Val)
  | [] => []
  | e :: rest => interpE e :: interpEProcs rest

end

/-- Suffix preservation for one element slot. -/
def RElemKeeps : RElem → Prop
  | .funcE f => KeepsSuffix f
  | .regexE _ _ => True

theorem redGo_suffix (elems : List RElem)
    (hf : ∀ el ∈ elems, RElemKeeps el) :
    ∀ (fes : List FailedExpectation) (vals : List (Option Val))
      (remainder : List Char) (r : PResult (List (Option Val))),
      redGo elems fes vals remainder = some r →
      PResult.remainder r <:+ remainder := by
  induction elems with
  | nil =>
    intro fes vals remainder r h
    simp only [redGo, Option.some.injEq] at h
    cases h
    exact List.suffix_rfl
  | cons el rest ih =>
    intro fes vals remainder r h
    cases el with
    | funcE f =>
      cases hg : f remainder with
      | none =>
        simp only [redGo, hg] at h
        exact Option.noConfusion h
      | some rg =>
        cases rg with
        | failure rrem rfes =>
          simp only [redGo, hg, Option.some.injEq] at h
          cases h
          have := hf (.funcE f) (by simp) remainder _ hg
          simpa [PResult.remainder] using this
        | success v rrem rfes =>
          simp only [redGo, hg] at h
          have h1 := ih
            (fun el2 hel2 => hf el2 (List.mem_cons_of_mem _ hel2)) _ _ _ _ h
          have h2 := hf (.funcE f) (by simp) remainder _ hg
          simp only [PResult.remainder] at h2
          exact h1.trans h2
    | regexE re exps =>
      cases hm : reMatch re remainder with
      | none =>
        simp only [redGo, hm, Option.some.injEq] at h
        cases h
        exact List.suffix_rfl
      | some rem2 =>
        simp only [redGo, hm] at h
        have h1 := ih
          (fun el2 hel2 => hf el2 (List.mem_cons_of_mem _ hel2)) _ _ _ _ h
        exact h1.trans (reMatch_suffix hm)

mutual

theorem interpE_suffix (e : GExpr) :
    ∀ (text : List Char) (r : PResult Val),
      interpE e text = some r → PResult.remainder r <:+ text := by
  cases e with
  | lit value =>
    intro text r h
    simp only [interpE, Option.some.injEq] at h
    cases h
    exact literalRun_suffix value text _ rfl
  | charCls p desc =>
    intro text r h
    simp only [interpE, Option.some.injEq] at h
    cases h
    exact classRun_suffix p desc text _ rfl
  | anyChar =>
    intro text r h
    simp only [interpE, Option.some.injEq] at h
    cases h
    exact anyRun_suffix text _ rfl
  | seq es pick =>
    intro text r h
    simp only [interpE, reductionRunE] at h
    cases hs : redGo (interpEElems es pick 0) [] [] text with
    | none =>
      rw [hs] at h
      exact Option.noConfusion h
    | some rs =>
      rw [hs] at h
      have hsuf := redGo_suffix (interpEElems es pick 0)
        (interpEElems_keep es pick 0) _ _ _ _ hs
      cases rs with
      | failure rem fes =>
        simp only [Option.some.injEq] at h
        cases h
        simpa [PResult.remainder] using hsuf
      | success vs rem fes =>
        cases pick with
        | some i =>
          simp only [Option.some.injEq] at h
          cases h
          simpa [PResult.remainder] using hsuf
        | none =>
          simp only [Option.some.injEq] at h
          cases h
          simpa [PResult.remainder] using hsuf
  | choice es =>
    intro text r h
    simp only [interpE] at h
    exact firstGo_suffix text (interpEProcs es) [] (interpEProcs_suffix es)
      r h
  | rep el minB maxB dOpt =>
    intro text r h
    cases dOpt with
    | none =>
      simp only [interpE] at h
      cases hrr : repetitionRun (interpE el) (none : Option (ProcO Val))
          minB maxB text with
      | none =>
        rw [hrr] at h
        exact Option.noConfusion h
      | some rr =>
        rw [hrr] at h
        have hsuf := repetitionRun_suffix (interpE el)
          (none : Option (ProcO Val)) minB maxB
          (fun s r2 h2 => interpE_suffix el s r2 h2)
          (fun d2 hd2 s r2 h2 => Option.noConfusion hd2)
          text rr hrr
        cases rr with
        | failure rem fes =>
          simp only [Option.some.injEq] at h
          cases h
          simpa [PResult.remainder] using hsuf
        | success vs rem fes =>
          simp only [Option.some.injEq] at h
          cases h
          simpa [PResult.remainder] using hsuf
    | some d =>
      simp only [interpE] at h
      cases hrr : repetitionRun (interpE el) (some (interpE d))
          minB maxB text with
      | none =>
        rw [hrr] at h
        exact Option.noConfusion h
      | some rr =>
        rw [hrr] at h
        have hsuf := repetitionRun_suffix (interpE el) (some (interpE d))
          minB maxB
          (fun s r2 h2 => interpE_suffix el s r2 h2)
          (fun d2 hd2 s r2 h2 => by
            simp only [Option.some.injEq] at hd2
            cases hd2
            exact interpE_suffix d s r2 h2)
          text rr hrr
        cases rr with
        | failure rem fes =>
          simp only [Option.some.injEq] at h
          cases h
          simpa [PResult.remainder] using hsuf
        | success vs rem fes =>
          simp only [Option.some.injEq] at h
          cases h
          simpa [PResult.remainder] using hsuf
  | txt el =>
    intro text r h
    cases ht : toRE el with
    | ok re =>
      simp only [interpE, ht, Option.some.injEq] at h
      cases h
      cases hm : reMatch re text with
      | some rem =>
        have hsuf := reMatch_suffix hm
        simp only [captureRun, hm, PResult.remainder]
        exact hsuf
      | none =>
        simp only [captureRun, hm, PResult.remainder]
        exact List.suffix_rfl
    | error err =>
      simp only [interpE, ht, extractRun] at h
      cases he : interpE el text with
      | none =>
        rw [he] at h
        exact Option.noConfusion h
      | some re2 =>
        rw [he] at h
        have hsuf := interpE_suffix el text re2 he
        cases re2 with
        | success v rrem rfes =>
          simp only [Option.some.injEq] at h
          cases h
          simpa [PResult.remainder] using hsuf
        | failure rrem rfes =>
          simp only [Option.some.injEq] at h
          cases h
          simpa [PResult.remainder] using hsuf
  | neg el =>
    intro text r h
    simp only [interpE, invertRun] at h
    cases he : interpE el text with
    | none =>
      rw [he] at h
      exact Option.noConfusion h
    | some re2 =>
      rw [he] at h
      cases re2 with
      | success v rrem rfes =>
        simp only [Option.some.injEq] at h
        cases h
        exact List.suffix_rfl
      | failure rrem rfes =>
        simp only [Option.some.injEq] at h
        cases h
        exact List.suffix_rfl
  | opt el =>
    intro text r h
    simp only [interpE, optionalRun] at h
    cases he : interpE el text with
    | none =>
      rw [he] at h
      exact Option.noConfusion h
    | some re2 =>
      rw [he] at h
      cases re2 with
      | success v rrem rfes =>
        simp only [Option.some.injEq] at h
        cases h
        have hsuf := interpE_suffix el text _ he
        simpa [PResult.remainder] using hsuf
      | failure rrem rfes =>
        simp only [Option.some.injEq] at h
        cases h
        exact List.suffix_rfl

theorem interpEElems_keep (es : List GExpr) :
    ∀ (pick : Option Nat) (i : Nat), ∀ el ∈ interpEElems es pick i,
      RElemKeeps el := by
  cases es with
  | nil =>
    intro pick i el hel
    simp only [interpEElems] at hel
    exact absurd hel (List.not_mem_nil el)
  | cons e rest =>
    intro pick i el hel
    simp only [interpEElems] at hel
    rcases List.mem_cons.mp hel with h1 | h2
    · subst h1
      split
      · split
        · trivial
        · intro s r h
          exact interpE_suffix e s r h
      · intro s r h
        exact interpE_suffix e s r h
    · exact interpEElems_keep rest pick (i + 1) el h2

theorem interpEProcs_suffix (es : List GExpr) :
    ∀ g ∈ interpEProcs es, ∀ (s : List Char) (r : PResult Val),
      g s = some r → PResult.remainder r <:+ s := by
  cases es with
  | nil =>
    intro g hg
    simp only [interpEProcs] at hg
    exact absurd hg (List.not_mem_nil g)
  | cons e rest =>
    intro g hg
    simp only [interpEProcs] at hg
    rcases List.mem_cons.mp hg with h1 | h2
    · cases h1
      exact interpE_suffix e
    · exact interpEProcs_suffix rest g h2

end

/-- C10: for every generated parsing procedure and every input, the returned
result's remainder is a suffix of that input, and the consumed text is
exactly the prefix whose length is the input length minus the remainder
length — preserved by every lowering strategy `interpE` covers: the
combinator lowerings of literal, class, any, sequence, choice, repetition,
negation and optional, the synthesized `Capture` path that `Text` prefers
(with its `Extract` fallback), and the `RegExpLiteral` element shortcut
inside picked sequences. -/
theorem C10_remainder_suffix_invariant (e : GExpr) (text : List Char)
    (r : PResult Val) (h : interpE e text = some r) :
    PResult.remainder r <:+ text ∧
      text.take (text.length - (PResult.remainder r).length) ++
        PResult.remainder r = text := by
  have hs := interpE_suffix e text r h
  exact ⟨hs, suffix_take_append hs⟩

/-- Witness for C10 at a concrete text capture over a sequence, lowered
through the synthesized `Capture` path. -/
theorem C10_witness :
    interpE (GExpr.txt (GExpr.seq [GExpr.lit ['a'], GExpr.anyChar] none))
        ['a', 'b', 'c'] =
      some (.success (Val.str ['a', 'b']) ['c'] []) ∧
    (PResult.remainder
        (PResult.success (Val.str ['a', 'b']) ['c']
          ([] : List FailedExpectation)) <:+ ['a', 'b', 'c'] ∧
      List.take
          (List.length ['a', 'b', 'c'] -
            (PResult.remainder
              (PResult.success (Val.str ['a', 'b']) ['c']
                ([] : List FailedExpectation))).length)
          ['a', 'b', 'c'] ++
        PResult.remainder
          (PResult.success (Val.str ['a', 'b']) ['c']
            ([] : List FailedExpectation)) = ['a', 'b', 'c']) :=
  ⟨rfl,
    C10_remainder_suffix_invariant
      (GExpr.txt (GExpr.seq [GExpr.lit ['a'], GExpr.anyChar] none))
      ['a', 'b', 'c']
      (PResult.success (Val.str ['a', 'b']) ['c'] []) rfl⟩

/-- A source location, modelling the identity of the `location` object the
upstream grammar parser attaches to each AST node (`f.source ===
origin.location` compares object identity, which distinct-location nodes
never share). -/
structure SrcLoc : Type where
  locId : Nat
deriving DecidableEq, Repr

/-- A miniature resolved grammar AST with per-node source locations, enough
to exercise the interning behaviour of `Function.from`. -/
inductive GNode : Type where
  | lit (loc : SrcLoc) (value : String)
  | seq (loc : SrcLoc) (elements : List GNode)
  | choice (loc : SrcLoc) (alternatives : List GNode)

/-- The location of a node. -/
def GNode.loc : GNode → SrcLoc
  | .lit l _ => l
  | .seq l _ => l
  | .choice l _ => l

mutual

/-- Erase locations (structural identity of sub-expressions). -/
def GNode.shape : GNode → GNode
  | .lit _ v => .lit ⟨0⟩ v
  | .seq _ es => .seq ⟨0⟩ (GNode.shapeList es)
  | .choice _ es => .choice ⟨0⟩ (GNode.shapeList es)

/-- Erase locations in a list of nodes. -/
def GNode.shapeList : List GNode → List GNode
  | [] => []
  | n :: rest => n.shape :: GNode.shapeList rest

end

/-- One entry of the `Reusable` directory: the generated definition's name
(`item${Reusable.push(this)}`, i.e. `item` followed by the directory length
after the push) and the source location it was interned under. -/
structure ProcEntry : Type where
  name : String
  source : SrcLoc
deriving DecidableEq, Repr

/-- `Reusable.find` specialised to the location key of `Function.from`: the
index of the first directory entry interned under the given source
location. -/
def findLoc : List ProcEntry → SrcLoc → Option Nat
  | [], _ => none
  | en :: rest, l =>
    if en.source = l then some 0 else (findLoc rest l).map (· + 1)

mutual

/-- `Function.from`: look the node's source location up in the directory
(`Reusable.find`, first match); a hit returns the existing Procedure, a miss
pushes a new entry (the constructor runs `super()` first, so the entry is
named and pushed before the children are lowered) and then lowers the
sub-expressions.  Returns the index of the node's Procedure and the grown
directory. -/
def functionFrom : GNode → List ProcEntry → Nat × List ProcEntry
  | n, dir =>
    match findLoc dir n.loc with
    | some i => (i, dir)
    | none =>
      let i := dir.length
      let dir1 := dir ++ [⟨"item" ++ toString (dir.length + 1), n.loc⟩]
      match n with
      | .lit _ _ => (i, dir1)
      | .seq _ es => (i, functionFromList es dir1)
      | .choice _ es => (i, functionFromList es dir1)

/-- Lower each sub-expression in order, threading the directory. -/
def functionFromList : List GNode → List ProcEntry → List ProcEntry
  | [], dir => dir
  | n :: rest, dir => functionFromList rest (functionFrom n dir).2

end

/-- Emission: the generated output is rendered from the directory in
insertion order; the emitted names are the interning-sensitive part of the
output text. -/
def renderOutput (dir : List ProcEntry) : String :=
  String.intercalate "\n" (dir.map (fun en => en.name))

/-- One engine invocation at process level: `toTypeScript` declares the
generator classes in its own body, so the `Reusable.#directory` static is
created afresh (empty) inside every call; directories from earlier
invocations remain as inert garbage in the process state and are never
consulted. -/
def invokeEngine (prior : List (List ProcEntry)) (g : GNode) :
    String × List (List ProcEntry) :=
  (renderOutput (functionFrom g []).2, prior ++ [(functionFrom g []).2])

theorem findLoc_append_none {d1 : List ProcEntry} {l : SrcLoc}
    (h : findLoc d1 l = none) (d2 : List ProcEntry) :
    findLoc (d1 ++ d2) l = (findLoc d2 l).map (· + d1.length) := by
  induction d1 with
  | nil =>
    simp only [List.nil_append, List.length_nil]
    cases hf : findLoc d2 l <;> simp [hf]
  | cons en rest ih =>
    simp only [findLoc] at h
    split at h
    · exact Option.noConfusion h
    next hsrc =>
      have hrest : findLoc rest l = none := by
        cases hr : findLoc rest l
        · rfl
        · rw [hr] at h; simp at h
      simp only [List.cons_append, findLoc, if_neg hsrc, List.append_eq,
        ih hrest, List.length_cons]
      cases hf : findLoc d2 l with
      | none => rfl
      | some j =>
        simp only [Option.map_some', Option.some.injEq]
        omega

theorem findLoc_get {d : List ProcEntry} {l : SrcLoc} {i : Nat}
    (h : findLoc d l = some i) :
    ∃ en, d.get? i = some en ∧ en.source = l := by
  induction d generalizing i with
  | nil => simp [findLoc] at h
  | cons en rest ih =>
    simp only [findLoc] at h
    split at h
    next hsrc =>
      cases h
      exact ⟨en, rfl, hsrc⟩
    next hsrc =>
      cases hr : findLoc rest l with
      | none => rw [hr] at h; simp at h
      | some j =>
        rw [hr] at h
        simp only [Option.map_some', Option.some.injEq] at h
        cases h
        obtain ⟨en2, hget, hsrc2⟩ := ih hr
        exact ⟨en2, by simpa using hget, hsrc2⟩

theorem functionFrom_found {n : GNode} {dir : List ProcEntry} {i : Nat}
    (h : findLoc dir n.loc = some i) :
    functionFrom n dir = (i, dir) := by
  cases n <;> simp_all [functionFrom, GNode.loc]

theorem functionFrom_lit_miss {l : SrcLoc} {v : String}
    {dir : List ProcEntry} (hf : findLoc dir l = none) :
    functionFrom (GNode.lit l v) dir =
      (dir.length,
        dir ++ [⟨"item" ++ toString (dir.length + 1), l⟩]) := by
  simp [functionFrom, GNode.loc, hf]

theorem functionFrom_seq_miss {l : SrcLoc} {es : List GNode}
    {dir : List ProcEntry} (hf : findLoc dir l = none) :
    functionFrom (GNode.seq l es) dir =
      (dir.length,
        functionFromList es
          (dir ++ [⟨"item" ++ toString (dir.length + 1), l⟩])) := by
  simp [functionFrom, GNode.loc, hf]

theorem functionFrom_choice_miss {l : SrcLoc} {es : List GNode}
    {dir : List ProcEntry} (hf : findLoc dir l = none) :
    functionFrom (GNode.choice l es) dir =
      (dir.length,
        functionFromList es
          (dir ++ [⟨"item" ++ toString (dir.length + 1), l⟩])) := by
  simp [functionFrom, GNode.loc, hf]

mutual

theorem functionFrom_append (n : GNode) (dir : List ProcEntry) :
    ∃ t, (functionFrom n dir).2 = dir ++ t := by
  cases hf : findLoc dir n.loc with
  | some i =>
    refine ⟨[], ?_⟩
    rw [functionFrom_found hf]
    simp
  | none =>
    cases n with
    | lit l v =>
      simp only [GNode.loc] at hf
      refine ⟨[⟨"item" ++ toString (dir.length + 1), l⟩], ?_⟩
      rw [functionFrom_lit_miss hf]
    | seq l es =>
      simp only [GNode.loc] at hf
      obtain ⟨t, ht⟩ := functionFromList_append es
        (dir ++ [⟨"item" ++ toString (dir.length + 1), l⟩])
      refine ⟨[⟨"item" ++ toString (dir.length + 1), l⟩] ++ t, ?_⟩
      rw [functionFrom_seq_miss hf]
      simp only [ht, List.append_assoc]
    | choice l es =>
      simp only [GNode.loc] at hf
      obtain ⟨t, ht⟩ := functionFromList_append es
        (dir ++ [⟨"item" ++ toString (dir.length + 1), l⟩])
      refine ⟨[⟨"item" ++ toString (dir.length + 1), l⟩] ++ t, ?_⟩
      rw [functionFrom_choice_miss hf]
      simp only [ht, List.append_assoc]

theorem functionFromList_append (es : List GNode) (dir : List ProcEntry) :
    ∃ t, functionFromList es dir = dir ++ t := by
  cases es with
  | nil => exact ⟨[], by simp [functionFromList]⟩
  | cons n rest =>
    obtain ⟨t1, ht1⟩ := functionFrom_append n dir
    obtain ⟨t2, ht2⟩ := functionFromList_append rest (functionFrom n dir).2
    refine ⟨t1 ++ t2, ?_⟩
    show functionFromList rest (functionFrom n dir).2 = dir ++ (t1 ++ t2)
    rw [ht2, ht1, List.append_assoc]

end

theorem functionFrom_findLoc (n : GNode) (dir : List ProcEntry) :
    findLoc (functionFrom n dir).2 n.loc = some (functionFrom n dir).1 := by
  cases hf : findLoc dir n.loc with
  | some i =>
    rw [functionFrom_found hf]
    exact hf
  | none =>
    have hnew : ∀ (t : List ProcEntry),
        findLoc
          (dir ++ ([⟨"item" ++ toString (dir.length + 1), n.loc⟩] ++ t))
          n.loc = some dir.length := by
      intro t
      rw [findLoc_append_none hf]
      simp [findLoc]
    cases n with
    | lit l v =>
      have h2 := hnew []
      simp only [GNode.loc] at hf h2
      rw [functionFrom_lit_miss hf]
      simpa using h2
    | seq l es =>
      simp only [GNode.loc] at hf
      obtain ⟨t, ht⟩ := functionFromList_append es
        (dir ++ [⟨"item" ++ toString (dir.length + 1), l⟩])
      have h2 := hnew t
      simp only [GNode.loc] at h2
      rw [functionFrom_seq_miss hf]
      show findLoc (functionFromList es
        (dir ++ [⟨"item" ++ toString (dir.length + 1), l⟩])) l =
          some dir.length
      rw [ht, List.append_assoc]
      exact h2
    | choice l es =>
      simp only [GNode.loc] at hf
      obtain ⟨t, ht⟩ := functionFromList_append es
        (dir ++ [⟨"item" ++ toString (dir.length + 1), l⟩])
      have h2 := hnew t
      simp only [GNode.loc] at h2
      rw [functionFrom_choice_miss hf]
      show findLoc (functionFromList es
        (dir ++ [⟨"item" ++ toString (dir.length + 1), l⟩])) l =
          some dir.length
      rw [ht, List.append_assoc]
      exact h2

theorem functionFrom_index_lt (n : GNode) (dir : List ProcEntry) :
    (functionFrom n dir).1 < (functionFrom n dir).2.length := by
  obtain ⟨en, hget, -⟩ := findLoc_get (functionFrom_findLoc n dir)
  exact (List.get?_eq_some.mp hget).1

/-- Counterexample for C7: in one grammar, two structurally identical
sub-expressions at different source locations lower to two distinct emitted
Procedures (`item2` and `item3`), not to one shared definition. -/
theorem C7_counterexample :
    (GNode.lit ⟨1⟩ "a").shape = (GNode.lit ⟨2⟩ "a").shape ∧
    (functionFrom (GNode.lit ⟨1⟩ "a")
        (functionFrom (GNode.seq ⟨0⟩
          [GNode.lit ⟨1⟩ "a", GNode.lit ⟨2⟩ "a"]) []).2).1 = 1 ∧
    (functionFrom (GNode.lit ⟨2⟩ "a")
        (functionFrom (GNode.seq ⟨0⟩
          [GNode.lit ⟨1⟩ "a", GNode.lit ⟨2⟩ "a"]) []).2).1 = 2 ∧
    renderOutput (functionFrom (GNode.seq ⟨0⟩
        [GNode.lit ⟨1⟩ "a", GNode.lit ⟨2⟩ "a"]) []).2 =
      "item1\nitem2\nitem3" :=
  ⟨rfl, by decide, by decide, rfl⟩

/-- C7 (amended): the interning directory is keyed by source-location
identity, not by structure: lowering the same AST node (same location
object) again returns the already-emitted Procedure and leaves the
directory unchanged (one definition, many call sites), while nodes with
distinct source locations always receive distinct Procedures, even when
structurally identical. -/
theorem C7_interning_by_location (n n1 n2 : GNode)
    (dir : List ProcEntry) (hloc : n1.loc ≠ n2.loc) :
    functionFrom n (functionFrom n dir).2 =
      ((functionFrom n dir).1, (functionFrom n dir).2) ∧
    (functionFrom n1 dir).1 ≠
      (functionFrom n2 (functionFrom n1 dir).2).1 := by
  constructor
  · exact functionFrom_found (functionFrom_findLoc n dir)
  · obtain ⟨en1, hget1, hsrc1⟩ := findLoc_get (functionFrom_findLoc n1 dir)
    obtain ⟨en2, hget2, hsrc2⟩ :=
      findLoc_get (functionFrom_findLoc n2 (functionFrom n1 dir).2)
    intro heq
    obtain ⟨t, ht⟩ := functionFrom_append n2 (functionFrom n1 dir).2
    have hlt : (functionFrom n1 dir).1 < (functionFrom n1 dir).2.length :=
      functionFrom_index_lt n1 dir
    have hsame : (functionFrom n2 (functionFrom n1 dir).2).2.get?
        (functionFrom n1 dir).1 = some en1 := by
      rw [ht, List.get?_append hlt]
      exact hget1
    rw [← heq] at hget2
    rw [hsame] at hget2
    cases hget2
    exact hloc (hsrc1 ▸ hsrc2 ▸ rfl)

/-- Witness for C7 (amended) at concrete nodes with distinct locations. -/
theorem C7_witness :
    (GNode.lit ⟨1⟩ "a").loc ≠ (GNode.lit ⟨2⟩ "a").loc ∧
    (functionFrom (GNode.lit ⟨3⟩ "x")
        (functionFrom (GNode.lit ⟨3⟩ "x") []).2 =
      ((functionFrom (GNode.lit ⟨3⟩ "x") []).1,
        (functionFrom (GNode.lit ⟨3⟩ "x") []).2) ∧
    (functionFrom (GNode.lit ⟨1⟩ "a") []).1 ≠
      (functionFrom (GNode.lit ⟨2⟩ "a")
        (functionFrom (GNode.lit ⟨1⟩ "a") []).2).1) :=
  ⟨by decide,
    C7_interning_by_location (GNode.lit ⟨3⟩ "x") (GNode.lit ⟨1⟩ "a")
      (GNode.lit ⟨2⟩ "a") [] (by decide)⟩

/-- C9: an engine invocation creates its interning directory afresh inside
the invocation (the generator classes, and with them the `Reusable`
directory, are declared in the body of `toTypeScript`), so the produced
output is a function of the grammar alone: two invocations in any two
process states produce byte-identical output, and a prior invocation's
leftover state never influences a later one. -/
theorem C9_idempotent_isolated_compilation :
    (∀ (prior1 prior2 : List (List ProcEntry)) (g : GNode),
      (invokeEngine prior1 g).1 = (invokeEngine prior2 g).1) ∧
    (∀ (prior : List (List ProcEntry)) (g : GNode),
      (invokeEngine (invokeEngine prior g).2 g).1 =
        (invokeEngine prior g).1) :=
  ⟨fun _ _ _ => rfl, fun _ _ => rfl⟩

/-- The engine's interned `Type` variants as they participate in
`UnionType.from`: `simple` stands for every non-union, non-success,
non-failure member (interning makes structural equality coincide with the
object identity the source compares), `failureT` for the `FailureType`
singleton, `successT` for `SuccessType` with its payload, and `unionT` for
`UnionType` with its member list. -/
inductive Ty : Type where
  | simple (name : String)
  | failureT
  | successT (payload : Ty)
  | unionT (members : List Ty)

mutual

/-- Decidable structural equality on `Ty` (identity of interned types). -/
def Ty.decEq : (a b : Ty) → Decidable (a = b)
  | .simple x, .simple y =>
    match String.decEq x y with
    | isTrue h => isTrue (by rw [h])
    | isFalse h => isFalse (fun hh => by cases hh; exact h rfl)
  | .simple _, .failureT => isFalse (fun h => Ty.noConfusion h)
  | .simple _, .successT _ => isFalse (fun h => Ty.noConfusion h)
  | .simple _, .unionT _ => isFalse (fun h => Ty.noConfusion h)
  | .failureT, .simple _ => isFalse (fun h => Ty.noConfusion h)
  | .failureT, .failureT => isTrue rfl
  | .failureT, .successT _ => isFalse (fun h => Ty.noConfusion h)
  | .failureT, .unionT _ => isFalse (fun h => Ty.noConfusion h)
  | .successT _, .simple _ => isFalse (fun h => Ty.noConfusion h)
  | .successT _, .failureT => isFalse (fun h => Ty.noConfusion h)
  | .successT a, .successT b =>
    match Ty.decEq a b with
    | isTrue h => isTrue (by rw [h])
    | isFalse h => isFalse (fun hh => by cases hh; exact h rfl)
  | .successT _, .unionT _ => isFalse (fun h => Ty.noConfusion h)
  | .unionT _, .simple _ => isFalse (fun h => Ty.noConfusion h)
  | .unionT _, .failureT => isFalse (fun h => Ty.noConfusion h)
  | .unionT _, .successT _ => isFalse (fun h => Ty.noConfusion h)
  | .unionT as, .unionT bs =>
    match Ty.decEqList as bs with
    | isTrue h => isTrue (by rw [h])
    | isFalse h => isFalse (fun hh => by cases hh; exact h rfl)

/-- Decidable equality on lists of types. -/
def Ty.decEqList : (as bs : List Ty) → Decidable (as = bs)
  | [], [] => isTrue rfl
  | [], _ :: _ => isFalse (fun h => List.noConfusion h)
  | _ :: _, [] => isFalse (fun h => List.noConfusion h)
  | a :: as, b :: bs =>
    match Ty.decEq a b, Ty.decEqList as bs with
    | isTrue h1, isTrue h2 => isTrue (by rw [h1, h2])
    | isFalse h1, _ => isFalse (fun hh => by cases hh; exact h1 rfl)
    | _, isFalse h2 => isFalse (fun hh => by cases hh; exact h2 rfl)

end

instance : DecidableEq Ty := Ty.decEq

/-- Is this a `SuccessType`? -/
def isSuccessTy : Ty → Bool
  | .successT _ => true
  | _ => false

/-- Is this a `UnionType`? -/
def isUnionTy : Ty → Bool
  | .unionT _ => true
  | _ => false

/-- A canonical input member: a union never directly contains a union
(guaranteed by the constructor's typing, `Exclude<Type, UnionType<Type>>`,
for every type the engine builds). -/
def memberOk : Ty → Bool
  | .unionT ms => ms.all (fun m => !isUnionTy m)
  | _ => true

/-- Insertion into a JS `Set`-ordered list: keeps the first occurrence. -/
def insertNew (acc : List Ty) (x : Ty) : List Ty :=
  if x ∈ acc then acc else acc ++ [x]

/-- The first `reduce` of `UnionType.from`: spread union members, keep
everything else, deduplicating by identity with `Set` insertion order. -/
def flattenGo (acc : List Ty) : List Ty → List Ty
  | [] => acc
  | t :: rest =>
    flattenGo
      (match t with
       | .unionT ms => ms.foldl insertNew acc
       | _ => insertNew acc t) rest

/-- Flatten-and-deduplicate, starting from the empty accumulator. -/
def flattenDedup (ts : List Ty) : List Ty :=
  flattenGo [] ts

/-- One step of the second `reduce` of `UnionType.from`: a `SuccessType`
merges into an accumulated head `SuccessType` by recursively unioning the
two payloads (`SuccessType.from(UnionType.from(acc[0].unwrap(),
type.unwrap()))`), or is prepended; any other member is appended. -/
def mergeStep (u : List Ty → Except String Ty) (acc : List Ty) (t : Ty) :
    Except String (List Ty) :=
  match t with
  | .successT p =>
    match acc with
    | .successT p0 :: rest =>
      match u [p0, p] with
      | .ok merged => .ok (.successT merged :: rest)
      | .error e => .error e
    | _ => .ok (.successT p :: acc)
  | _ => .ok (acc ++ [t])

/-- The second `reduce` of `UnionType.from` over the flattened members. -/
def mergeAll (u : List Ty → Except String Ty) :
    List Ty → List Ty → Except String (List Ty)
  | acc, [] => .ok acc
  | acc, t :: rest =>
    match mergeStep u acc t with
    | .ok acc2 => mergeAll u acc2 rest
    | .error e => .error e

/-- `UnionType.from`, fuel-indexed for the recursive payload merge (`none`
fuel exhaustion cannot occur at the fuel `unionFrom` supplies): flatten and
deduplicate, merge the successes, then fail on an empty list, collapse a
singleton, and otherwise build the union. -/
def unionFromF : Nat → List Ty → Except String Ty
  | 0, _ => .error "fuel exhausted"
  | f + 1, ts =>
    match mergeAll (unionFromF f) [] (flattenDedup ts) with
    | .error e => .error e
    | .ok [] => .error "cannot create union of zero types"
    | .ok [t] => .ok t
    | .ok types => .ok (.unionT types)

mutual

/-- Size measure used only to pick an always-sufficient fuel. -/
def tySize : Ty → Nat
  | .simple _ => 1
  | .failureT => 1
  | .successT p => tySize p + 1
  | .unionT ms => tySizeList ms + 1

/-- Total size of a list of types. -/
def tySizeList : List Ty → Nat
  | [] => 0
  | t :: rest => tySize t + tySizeList rest

end

/-- `UnionType.from`. -/
def unionFrom (ts : List Ty) : Except String Ty :=
  unionFromF (tySizeList ts + 1) ts

/-- The payloads of the `SuccessType` members, in order. -/
def successPayloads (ts : List Ty) : List Ty :=
  ts.filterMap (fun t =>
    match t with
    | .successT p => some p
    | _ => none)

/-- Left fold of the recursive payload merge, as performed by the second
`reduce` on consecutive `SuccessType` members. -/
def mergePayloads (u : List Ty → Except String Ty) :
    Ty → List Ty → Except String Ty
  | q, [] => .ok q
  | q, p :: rest =>
    match u [q, p] with
    | .ok m => mergePayloads u m rest
    | .error e => .error e

theorem mergeAll_succ (u : List Ty → Except String Ty) :
    ∀ (rest : List Ty) (q : Ty) (nonAcc : List Ty),
      (∀ t ∈ nonAcc, isSuccessTy t = false) →
      mergeAll u (.successT q :: nonAcc) rest =
        match mergePayloads u q (successPayloads rest) with
        | .ok m =>
          .ok (.successT m ::
            (nonAcc ++ rest.filter (fun t => !isSuccessTy t)))
        | .error e => .error e := by
  intro rest
  induction rest with
  | nil =>
    intro q nonAcc hna
    simp [mergeAll, successPayloads, mergePayloads]
  | cons t r2 ih =>
    intro q nonAcc hna
    cases t with
    | successT p =>
      cases hu : u [q, p] with
      | ok m =>
        have step : mergeAll u (.successT q :: nonAcc) (.successT p :: r2) =
            mergeAll u (.successT m :: nonAcc) r2 := by
          simp [mergeAll, mergeStep, hu]
        rw [step, ih m nonAcc hna]
        simp [successPayloads, mergePayloads, hu, isSuccessTy]
      | error e =>
        have step : mergeAll u (.successT q :: nonAcc) (.successT p :: r2) =
            .error e := by
          simp [mergeAll, mergeStep, hu]
        rw [step]
        simp [successPayloads, mergePayloads, hu]
    | simple s =>
      have step : mergeAll u (.successT q :: nonAcc) (.simple s :: r2) =
          mergeAll u (.successT q :: (nonAcc ++ [.simple s])) r2 := by
        simp [mergeAll, mergeStep]
      rw [step, ih q (nonAcc ++ [Ty.simple s])
        (by intro t ht
            rcases List.mem_append.mp ht with h1 | h1
            · exact hna t h1
            · rw [List.mem_singleton.mp h1]; rfl)]
      simp [successPayloads, isSuccessTy]
    | failureT =>
      have step : mergeAll u (.successT q :: nonAcc) (.failureT :: r2) =
          mergeAll u (.successT q :: (nonAcc ++ [.failureT])) r2 := by
        simp [mergeAll, mergeStep]
      rw [step, ih q (nonAcc ++ [Ty.failureT])
        (by intro t ht
            rcases List.mem_append.mp ht with h1 | h1
            · exact hna t h1
            · rw [List.mem_singleton.mp h1]; rfl)]
      simp [successPayloads, isSuccessTy]
    | unionT ms =>
      have step : mergeAll u (.successT q :: nonAcc) (.unionT ms :: r2) =
          mergeAll u (.successT q :: (nonAcc ++ [.unionT ms])) r2 := by
        simp [mergeAll, mergeStep]
      rw [step, ih q (nonAcc ++ [Ty.unionT ms])
        (by intro t ht
            rcases List.mem_append.mp ht with h1 | h1
            · exact hna t h1
            · rw [List.mem_singleton.mp h1]; rfl)]
      simp [successPayloads, isSuccessTy]

theorem mergeAll_nosucc (u : List Ty → Except String Ty) :
    ∀ (rest nonAcc : List Ty),
      (∀ t ∈ nonAcc, isSuccessTy t = false) →
      mergeAll u nonAcc rest =
        match successPayloads rest with
        | [] => .ok (nonAcc ++ rest)
        | p :: ps =>
          match mergePayloads u p ps with
          | .ok m =>
            .ok (.successT m ::
              (nonAcc ++ rest.filter (fun t => !isSuccessTy t)))
          | .error e => .error e := by
  intro rest
  induction rest with
  | nil =>
    intro nonAcc hna
    simp [mergeAll, successPayloads]
  | cons t r2 ih =>
    intro nonAcc hna
    cases t with
    | successT p =>
      have step : mergeAll u nonAcc (.successT p :: r2) =
          mergeAll u (.successT p :: nonAcc) r2 := by
        cases nonAcc with
        | nil => simp [mergeAll, mergeStep]
        | cons x xs =>
          have hx := hna x (by simp)
          cases x <;> simp_all [mergeAll, mergeStep, isSuccessTy]
      rw [step, mergeAll_succ u r2 p nonAcc hna]
      simp [successPayloads, isSuccessTy]
    | simple s =>
      have step : mergeAll u nonAcc (.simple s :: r2) =
          mergeAll u (nonAcc ++ [.simple s]) r2 := by
        simp [mergeAll, mergeStep]
      rw [step, ih (nonAcc ++ [Ty.simple s])
        (by intro t ht
            rcases List.mem_append.mp ht with h1 | h1
            · exact hna t h1
            · rw [List.mem_singleton.mp h1]; rfl)]
      have hsc : successPayloads (Ty.simple s :: r2) = successPayloads r2 := rfl
      rw [hsc]
      cases hsp : successPayloads r2 with
      | nil => simp
      | cons p ps => simp [List.filter_cons, isSuccessTy]
    | failureT =>
      have step : mergeAll u nonAcc (.failureT :: r2) =
          mergeAll u (nonAcc ++ [.failureT]) r2 := by
        simp [mergeAll, mergeStep]
      rw [step, ih (nonAcc ++ [Ty.failureT])
        (by intro t ht
            rcases List.mem_append.mp ht with h1 | h1
            · exact hna t h1
            · rw [List.mem_singleton.mp h1]; rfl)]
      have hsc : successPayloads (Ty.failureT :: r2) = successPayloads r2 := rfl
      rw [hsc]
      cases hsp : successPayloads r2 with
      | nil => simp
      | cons p ps => simp [List.filter_cons, isSuccessTy]
    | unionT ms =>
      have step : mergeAll u nonAcc (.unionT ms :: r2) =
          mergeAll u (nonAcc ++ [.unionT ms]) r2 := by
        simp [mergeAll, mergeStep]
      rw [step, ih (nonAcc ++ [Ty.unionT ms])
        (by intro t ht
            rcases List.mem_append.mp ht with h1 | h1
            · exact hna t h1
            · rw [List.mem_singleton.mp h1]; rfl)]
      have hsc : successPayloads (Ty.unionT ms :: r2) = successPayloads r2 := rfl
      rw [hsc]
      cases hsp : successPayloads r2 with
      | nil => simp
      | cons p ps => simp [List.filter_cons, isSuccessTy]

theorem insertNew_nodup (acc : List Ty) (x : Ty) (h : acc.Nodup) :
    (insertNew acc x).Nodup := by
  unfold insertNew
  by_cases hx : x ∈ acc
  · simpa [hx] using h
  · simp [hx, List.nodup_append, h]

theorem insertNew_mem (acc : List Ty) (x y : Ty)
    (h : y ∈ insertNew acc x) : y ∈ acc ∨ y = x := by
  unfold insertNew at h
  by_cases hx : x ∈ acc
  · rw [if_pos hx] at h; exact .inl h
  · rw [if_neg hx] at h
    rcases List.mem_append.mp h with h1 | h1
    · exact .inl h1
    · exact .inr (List.mem_singleton.mp h1)

theorem foldl_insertNew_nodup (ms : List Ty) :
    ∀ acc, acc.Nodup → (ms.foldl insertNew acc).Nodup := by
  induction ms with
  | nil => intro acc h; exact h
  | cons m rest ih => intro acc h; exact ih _ (insertNew_nodup acc m h)

theorem foldl_insertNew_mem (ms : List Ty) :
    ∀ acc y, y ∈ ms.foldl insertNew acc → y ∈ acc ∨ y ∈ ms := by
  induction ms with
  | nil => intro acc y h; exact .inl h
  | cons m rest ih =>
    intro acc y h
    rcases ih _ y h with h1 | h1
    · rcases insertNew_mem acc m y h1 with h2 | h2
      · exact .inl h2
      · exact .inr (by simp [h2])
    · exact .inr (by simp [h1])

theorem flattenGo_nodup :
    ∀ (ts acc : List Ty), acc.Nodup → (flattenGo acc ts).Nodup := by
  intro ts
  induction ts with
  | nil => intro acc h; exact h
  | cons t rest ih =>
    intro acc h
    cases t with
    | unionT ms => exact ih _ (foldl_insertNew_nodup ms acc h)
    | simple s => exact ih _ (insertNew_nodup acc _ h)
    | failureT => exact ih _ (insertNew_nodup acc _ h)
    | successT p => exact ih _ (insertNew_nodup acc _ h)

theorem flattenGo_not_union :
    ∀ (ts acc : List Ty), (∀ y ∈ acc, isUnionTy y = false) →
      (∀ t ∈ ts, memberOk t = true) →
      ∀ y ∈ flattenGo acc ts, isUnionTy y = false := by
  intro ts
  induction ts with
  | nil => intro acc hacc _ y hy; exact hacc y hy
  | cons t rest ih =>
    intro acc hacc hok y hy
    cases t with
    | unionT ms =>
      refine ih _ ?_ (fun t ht => hok t (by simp [ht])) y hy
      intro z hz
      rcases foldl_insertNew_mem ms acc z hz with h1 | h1
      · exact hacc z h1
      · have hall := hok (Ty.unionT ms) (by simp)
        simp only [memberOk, List.all_eq_true] at hall
        simpa using hall z h1
    | simple s =>
      refine ih _ ?_ (fun t ht => hok t (by simp [ht])) y hy
      intro z hz
      rcases insertNew_mem acc _ z hz with h1 | h1
      · exact hacc z h1
      · rw [h1]; rfl
    | failureT =>
      refine ih _ ?_ (fun t ht => hok t (by simp [ht])) y hy
      intro z hz
      rcases insertNew_mem acc _ z hz with h1 | h1
      · exact hacc z h1
      · rw [h1]; rfl
    | successT p =>
      refine ih _ ?_ (fun t ht => hok t (by simp [ht])) y hy
      intro z hz
      rcases insertNew_mem acc _ z hz with h1 | h1
      · exact hacc z h1
      · rw [h1]; rfl

theorem flattenDedup_nodup (ts : List Ty) : (flattenDedup ts).Nodup :=
  flattenGo_nodup ts [] List.nodup_nil

theorem flattenDedup_not_union (ts : List Ty)
    (hok : ∀ t ∈ ts, memberOk t = true) :
    ∀ y ∈ flattenDedup ts, isUnionTy y = false :=
  flattenGo_not_union ts [] (by intro y hy; cases hy) hok

theorem successPayloads_nil (l : List Ty) (h : successPayloads l = [])
    (t : Ty) (ht : t ∈ l) : isSuccessTy t = false := by
  cases t with
  | successT p =>
    exfalso
    have hp : p ∈ successPayloads l :=
      List.mem_filterMap.mpr ⟨Ty.successT p, ht, rfl⟩
    rw [h] at hp
    exact absurd hp (List.not_mem_nil p)
  | simple s => rfl
  | failureT => rfl
  | unionT ms => rfl

/-- C8 (counterexample): on an empty member list the canonicalizing union
constructor fails with the message "cannot create union of zero types", not
"cannot build union of zero types" as the claim states. -/
theorem C8_counterexample :
    unionFrom ([] : List Ty) =
        Except.error "cannot create union of zero types" ∧
    ¬ unionFrom ([] : List Ty) =
        Except.error "cannot build union of zero types" := by
  constructor
  · rfl
  · intro h
    rw [show unionFrom ([] : List Ty) =
          Except.error "cannot create union of zero types" from rfl] at h
    exact absurd (Except.error.inj h) (by decide)

/-- C8 (amended): the canonicalizing union constructor flattens nested
unions and deduplicates members (so the flattened list is exactly what the
two reduces see); it fails with the error "cannot create union of zero
types" when that list is empty, collapses to the single member when one
member remains, and every union it actually builds has at least two
pairwise-distinct non-union members of which at most one is a `SuccessType`
— placed at the head; two distinct `SuccessType` members merge into one
whose payload is the recursive union of the two payloads. -/
theorem C8_union_constructor (ts : List Ty)
    (hok : ∀ t ∈ ts, memberOk t = true) :
    (flattenDedup ts = [] →
        unionFrom ts = .error "cannot create union of zero types") ∧
    (∀ t, flattenDedup ts = [t] → unionFrom ts = .ok t) ∧
    (∀ ms, unionFrom ts = .ok (.unionT ms) →
        2 ≤ ms.length ∧ ms.Nodup ∧
        (∀ m ∈ ms, isUnionTy m = false) ∧
        ms.countP (fun t => isSuccessTy t) ≤ 1 ∧
        (∀ p, Ty.successT p ∈ ms → ms.head? = some (Ty.successT p))) ∧
    (∀ (f : Nat) (p q : Ty), p ≠ q →
        unionFromF (f + 1) [.successT p, .successT q] =
          (unionFromF f [p, q]).map Ty.successT) := by
  refine ⟨?_, ?_, ?_, ?_⟩
  · intro h
    simp [unionFrom, unionFromF, h, mergeAll]
  · intro t h
    cases t <;> simp [unionFrom, unionFromF, h, mergeAll, mergeStep]
  · intro ms hms
    have hnodup : (flattenDedup ts).Nodup := flattenDedup_nodup ts
    have hnu : ∀ y ∈ flattenDedup ts, isUnionTy y = false :=
      flattenDedup_not_union ts hok
    have hmer := mergeAll_nosucc (unionFromF (tySizeList ts))
      (flattenDedup ts) [] (by intro t ht; cases ht)
    rw [show unionFrom ts =
          (match mergeAll (unionFromF (tySizeList ts)) []
              (flattenDedup ts) with
           | .error e => .error e
           | .ok [] => .error "cannot create union of zero types"
           | .ok [t] => .ok t
           | .ok types => .ok (.unionT types)) from rfl, hmer] at hms
    cases hsp : successPayloads (flattenDedup ts) with
    | nil =>
      rw [hsp] at hms
      simp only [List.nil_append] at hms
      have hallns : ∀ t ∈ flattenDedup ts, isSuccessTy t = false :=
        fun t ht => successPayloads_nil _ hsp t ht
      cases hflat : flattenDedup ts with
      | nil => rw [hflat] at hms; exact absurd hms (by simp)
      | cons x xs =>
        cases xs with
        | nil =>
          rw [hflat] at hms
          have hx : x = Ty.unionT ms := by
            simpa using hms
          have := hnu x (by rw [hflat]; simp)
          rw [hx] at this
          exact absurd this (by simp [isUnionTy])
        | cons y ys =>
          rw [hflat] at hms
          have hms2 : ms = x :: y :: ys := by
            have := Except.ok.inj hms
            exact (Ty.unionT.inj this).symm
          subst hms2
          rw [hflat] at hnodup hnu hallns
          refine ⟨by simp, hnodup, hnu, ?_, ?_⟩
          · have : List.countP (fun t => isSuccessTy t) (x :: y :: ys) = 0 :=
              List.countP_eq_zero.mpr (by
                intro a ha
                simp [hallns a ha])
            omega
          · intro p hp
            have := hallns _ hp
            exact absurd this (by simp [isSuccessTy])
    | cons p ps =>
      rw [hsp] at hms
      simp only [List.nil_append] at hms
      cases hmp : mergePayloads (unionFromF (tySizeList ts)) p ps with
      | error e =>
        rw [hmp] at hms
        exact absurd hms (by simp)
      | ok m =>
        rw [hmp] at hms
        simp only [List.nil_append] at hms
        cases hfil : (flattenDedup ts).filter (fun t => !isSuccessTy t) with
        | nil =>
          rw [hfil] at hms
          exact absurd (Except.ok.inj hms) (by simp)
        | cons x xs =>
          rw [hfil] at hms
          have hms2 : ms = Ty.successT m :: x :: xs := by
            have := Except.ok.inj hms
            exact (Ty.unionT.inj this).symm
          subst hms2
          have htail : ∀ z ∈ x :: xs,
              z ∈ flattenDedup ts ∧ isSuccessTy z = false := by
            intro z hz
            have hz2 : z ∈ (flattenDedup ts).filter
                (fun t => !isSuccessTy t) := by rw [hfil]; exact hz
            have := List.mem_filter.mp hz2
            exact ⟨this.1, by simpa using this.2⟩
          refine ⟨by simp, ?_, ?_, ?_, ?_⟩
          · rw [List.nodup_cons]
            constructor
            · intro hmem
              have := (htail _ hmem).2
              exact absurd this (by simp [isSuccessTy])
            · rw [← hfil]
              exact List.Nodup.filter _ hnodup
          · intro z hz
            rcases List.mem_cons.mp hz with h1 | h1
            · rw [h1]; rfl
            · exact hnu z (htail z h1).1
          · rw [List.countP_cons, List.countP_cons]
            have h0 : List.countP (fun t => isSuccessTy t) xs = 0 :=
              List.countP_eq_zero.mpr (by
                intro a ha
                simp [(htail a (by simp [ha])).2])
            have hx : isSuccessTy x = false := (htail x (by simp)).2
            rw [h0]
            simp [isSuccessTy]
            exact hx
          · intro p0 hp0
            rcases List.mem_cons.mp hp0 with h1 | h1
            · rw [← h1]; rfl
            · have := (htail _ h1).2
              exact absurd this (by simp [isSuccessTy])
  · intro f p q hpq
    have hflat : flattenDedup [Ty.successT p, Ty.successT q] =
        [Ty.successT p, Ty.successT q] := by
      simp [flattenDedup, flattenGo, insertNew, hpq.symm]
    rw [show unionFromF (f + 1) [Ty.successT p, Ty.successT q] =
          (match mergeAll (unionFromF f) []
              (flattenDedup [Ty.successT p, Ty.successT q]) with
           | .error e => .error e
           | .ok [] => .error "cannot create union of zero types"
           | .ok [t] => .ok t
           | .ok types => .ok (.unionT types)) from rfl, hflat]
    cases hu : unionFromF f [p, q] with
    | ok m => simp [mergeAll, mergeStep, hu, Except.map]
    | error e => simp [mergeAll, mergeStep, hu, Except.map]

/-- Witness for the amended C8 theorem at a concrete member list. -/
theorem C8_witness :
    (∀ t ∈ [Ty.successT (Ty.simple "A"), Ty.failureT,
            Ty.successT (Ty.simple "B")], memberOk t = true) ∧
    ((flattenDedup [Ty.successT (Ty.simple "A"), Ty.failureT,
            Ty.successT (Ty.simple "B")] = [] →
        unionFrom [Ty.successT (Ty.simple "A"), Ty.failureT,
            Ty.successT (Ty.simple "B")] =
          .error "cannot create union of zero types") ∧
      (∀ t, flattenDedup [Ty.successT (Ty.simple "A"), Ty.failureT,
            Ty.successT (Ty.simple "B")] = [t] →
        unionFrom [Ty.successT (Ty.simple "A"), Ty.failureT,
            Ty.successT (Ty.simple "B")] = .ok t) ∧
      (∀ ms, unionFrom [Ty.successT (Ty.simple "A"), Ty.failureT,
            Ty.successT (Ty.simple "B")] = .ok (.unionT ms) →
        2 ≤ ms.length ∧ ms.Nodup ∧
        (∀ m ∈ ms, isUnionTy m = false) ∧
        ms.countP (fun t => isSuccessTy t) ≤ 1 ∧
        (∀ p, Ty.successT p ∈ ms → ms.head? = some (Ty.successT p))) ∧
      (∀ (f : Nat) (p q : Ty), p ≠ q →
        unionFromF (f + 1) [.successT p, .successT q] =
          (unionFromF f [p, q]).map Ty.successT)) :=
  ⟨by decide,
   C8_union_constructor
     [Ty.successT (Ty.simple "A"), Ty.failureT, Ty.successT (Ty.simple "B")]
     (by decide)⟩

/-- `First.toType`: the result type of an ordered choice is
`UnionType.from(...)` over the alternatives' return types. -/
def firstToType (tys : List Ty) : Except String Ty :=
  unionFrom tys

theorem insertNew_self (acc : List Ty) (x : Ty) : x ∈ insertNew acc x := by
  unfold insertNew
  split
  next hx => exact hx
  next => simp

theorem insertNew_mono {acc : List Ty} {y : Ty} (x : Ty) (h : y ∈ acc) :
    y ∈ insertNew acc x := by
  unfold insertNew
  split
  · exact h
  · exact List.mem_append_left _ h

theorem foldl_insertNew_mono (ms : List Ty) :
    ∀ (acc : List Ty) (y : Ty), y ∈ acc → y ∈ ms.foldl insertNew acc := by
  induction ms with
  | nil => intro acc y h; exact h
  | cons m rest ih => intro acc y h; exact ih _ y (insertNew_mono m h)

theorem flattenGo_mono :
    ∀ (ts acc : List Ty) (y : Ty), y ∈ acc → y ∈ flattenGo acc ts := by
  intro ts
  induction ts with
  | nil => intro acc y h; exact h
  | cons t rest ih =>
    intro acc y h
    cases t with
    | unionT ms => exact ih _ y (foldl_insertNew_mono ms acc y h)
    | simple s => exact ih _ y (insertNew_mono _ h)
    | failureT => exact ih _ y (insertNew_mono _ h)
    | successT p => exact ih _ y (insertNew_mono _ h)

theorem flattenGo_mem_self :
    ∀ (ts acc : List Ty) (t : Ty), t ∈ ts → isUnionTy t = false →
      t ∈ flattenGo acc ts := by
  intro ts
  induction ts with
  | nil => intro acc t h _; exact absurd h (List.not_mem_nil t)
  | cons t2 rest ih =>
    intro acc t h hnu
    rcases List.mem_cons.mp h with h1 | h2
    · subst h1
      cases t with
      | unionT ms => exact absurd hnu (by simp [isUnionTy])
      | simple s => exact flattenGo_mono rest _ _ (insertNew_self acc _)
      | failureT => exact flattenGo_mono rest _ _ (insertNew_self acc _)
      | successT p => exact flattenGo_mono rest _ _ (insertNew_self acc _)
    · cases t2 with
      | unionT ms => exact ih _ t h2 hnu
      | simple s => exact ih _ t h2 hnu
      | failureT => exact ih _ t h2 hnu
      | successT p => exact ih _ t h2 hnu

theorem flattenGo_mem_sub :
    ∀ (ts acc : List Ty) (y : Ty), y ∈ flattenGo acc ts →
      y ∈ acc ∨ ∃ t ∈ ts, y = t ∨ ∃ ms, t = Ty.unionT ms ∧ y ∈ ms := by
  intro ts
  induction ts with
  | nil => intro acc y h; exact Or.inl h
  | cons t2 rest ih =>
    intro acc y h
    cases t2 with
    | unionT ms =>
      rcases ih _ y h with h1 | ⟨t, ht, h3⟩
      · rcases foldl_insertNew_mem ms acc y h1 with h4 | h4
        · exact Or.inl h4
        · exact Or.inr ⟨Ty.unionT ms, by simp, Or.inr ⟨ms, rfl, h4⟩⟩
      · exact Or.inr ⟨t, by simp [ht], h3⟩
    | simple s =>
      rcases ih _ y h with h1 | ⟨t, ht, h3⟩
      · rcases insertNew_mem acc _ y h1 with h4 | h4
        · exact Or.inl h4
        · exact Or.inr ⟨Ty.simple s, by simp, Or.inl h4⟩
      · exact Or.inr ⟨t, by simp [ht], h3⟩
    | failureT =>
      rcases ih _ y h with h1 | ⟨t, ht, h3⟩
      · rcases insertNew_mem acc _ y h1 with h4 | h4
        · exact Or.inl h4
        · exact Or.inr ⟨Ty.failureT, by simp, Or.inl h4⟩
      · exact Or.inr ⟨t, by simp [ht], h3⟩
    | successT p =>
      rcases ih _ y h with h1 | ⟨t, ht, h3⟩
      · rcases insertNew_mem acc _ y h1 with h4 | h4
        · exact Or.inl h4
        · exact Or.inr ⟨Ty.successT p, by simp, Or.inl h4⟩
      · exact Or.inr ⟨t, by simp [ht], h3⟩

theorem successPayloads_eq_nil (l : List Ty)
    (h : ∀ t ∈ l, isSuccessTy t = false) : successPayloads l = [] := by
  refine List.filterMap_eq_nil_iff.mpr ?_
  intro t ht
  cases t with
  | successT p => exact absurd (h _ ht) (by simp [isSuccessTy])
  | simple s => rfl
  | failureT => rfl
  | unionT ms => rfl

/-- C4: the lowering of ordered choice tries alternatives in declared
order; the first success decides the result (its value and remainder are
returned, with the failed expectations of every alternative tried so far
accumulated); when every alternative fails, the result is a failure at the
original input position carrying the concatenation of all alternatives'
collected failed expectations; and the node's result type (`First.toType`)
is the union, through the canonicalizing union constructor, of the
alternatives' result types: every non-union, non-success alternative type
is the built result type itself (singleton collapse) or one of the members
of the union built. -/
theorem C4_choice_order {α : Type} (funs : List (ProcO α))
    (text : List Char) :
    ((∀ g ∈ funs, ∃ rem fes, g text = some (.failure rem fes)) →
      firstRun funs text =
        some (.failure text ((funs.map (fun g => fesOf g text)).flatten))) ∧
    (∀ (pre post : List (ProcO α)) (f : ProcO α) (v : α)
        (rem : List Char) (fes : List FailedExpectation),
      funs = pre ++ f :: post →
      (∀ g ∈ pre, ∃ rem2 fes2, g text = some (.failure rem2 fes2)) →
      f text = some (.success v rem fes) →
      firstRun funs text =
        some (.success v rem
          ((pre.map (fun g => fesOf g text)).flatten ++ fes))) ∧
    (∀ (tys : List Ty) (t : Ty),
      (∀ x ∈ tys, isUnionTy x = false) →
      (∀ x ∈ tys, isSuccessTy x = false) →
      t ∈ tys →
      firstToType tys = .ok t ∨
        ∃ ms, firstToType tys = .ok (.unionT ms) ∧ t ∈ ms) := by
  refine ⟨?_, ?_, ?_⟩
  · intro h
    have := firstGo_all_fail text funs [] h
    simpa [firstRun] using this
  · intro pre post f v rem fes hsplit hpre hf
    subst hsplit
    have := firstGo_first_success text pre f post [] v rem fes hpre hf
    simpa [firstRun] using this
  · intro tys t hnu hns ht
    have htf : t ∈ flattenDedup tys :=
      flattenGo_mem_self tys [] t ht (hnu t ht)
    have hflatns : ∀ y ∈ flattenDedup tys, isSuccessTy y = false := by
      intro y hy
      rcases flattenGo_mem_sub tys [] y hy with h1 | ⟨t2, ht2, h3⟩
      · exact absurd h1 (List.not_mem_nil y)
      · rcases h3 with rfl | ⟨ms, hms, _⟩
        · exact hns _ ht2
        · exact absurd (hnu t2 ht2) (by simp [hms, isUnionTy])
    have hsp : successPayloads (flattenDedup tys) = [] :=
      successPayloads_eq_nil _ hflatns
    have hmer := mergeAll_nosucc (unionFromF (tySizeList tys))
      (flattenDedup tys) [] (by intro x hx; cases hx)
    rw [hsp] at hmer
    simp only [List.nil_append] at hmer
    rw [show firstToType tys =
          (match mergeAll (unionFromF (tySizeList tys)) []
              (flattenDedup tys) with
           | .error e => .error e
           | .ok [] => .error "cannot create union of zero types"
           | .ok [t2] => .ok t2
           | .ok types => .ok (.unionT types)) from rfl, hmer]
    cases hflat : flattenDedup tys with
    | nil =>
      rw [hflat] at htf
      exact absurd htf (List.not_mem_nil t)
    | cons x xs =>
      cases xs with
      | nil =>
        rw [hflat] at htf
        simp only [List.mem_singleton] at htf
        subst htf
        exact Or.inl rfl
      | cons y ys =>
        refine Or.inr ⟨x :: y :: ys, rfl, ?_⟩
        rw [← hflat]
        exact htf

/-- Witness for C4 on the specification's own example `"abc" / "ab"`
against input `"ab"` (the longer first alternative fails, the second
decides the result), plus the result type of a two-alternative choice. -/
theorem C4_witness :
    litP ['a', 'b', 'c'] ['a', 'b'] =
      some (.failure ['a', 'b'] [⟨⟨.literal, "abc"⟩, ['a', 'b']⟩]) ∧
    litP ['a', 'b'] ['a', 'b'] =
      some (.success (Val.str ['a', 'b']) [] []) ∧
    firstRun [litP ['a', 'b', 'c'], litP ['a', 'b']] ['a', 'b'] =
      some (.success (Val.str ['a', 'b']) []
        (([ (litP ['a', 'b', 'c']) ].map
            (fun g => fesOf g ['a', 'b'])).flatten ++ [])) ∧
    (firstToType [Ty.simple "string", Ty.failureT] = .ok Ty.failureT ∨
      ∃ ms, firstToType [Ty.simple "string", Ty.failureT] =
          .ok (.unionT ms) ∧ Ty.failureT ∈ ms) := by
  refine ⟨rfl, rfl, ?_, ?_⟩
  · exact (C4_choice_order [litP ['a', 'b', 'c'], litP ['a', 'b']]
        ['a', 'b']).2.1
      [litP ['a', 'b', 'c']] [] (litP ['a', 'b'])
      (Val.str ['a', 'b']) [] [] rfl
      (by
        intro g hg
        simp only [List.mem_singleton] at hg
        subst hg
        exact ⟨['a', 'b'], [⟨⟨.literal, "abc"⟩, ['a', 'b']⟩], rfl⟩)
      rfl
  · exact (C4_choice_order [litP ['a', 'b', 'c'], litP ['a', 'b']]
        ['a', 'b']).2.2
      [Ty.simple "string", Ty.failureT] Ty.failureT
      (by decide) (by decide) (by decide)

end PeggyTs
